import Mathlib

/-!
Verification of the FreeSASA core: the cell-list neighbor index (`src/nb.c`)
and the Lee & Richards slice integrator (`src/sasa_lr.c`).

The neighbor machinery is modelled polymorphically over a linear ordered
field `K` (instantiated at `ℚ` for concrete evaluation and at `ℝ` for the
integrator); all comparisons in the C code are on exact arithmetic
expressions (squared distances), so the model is executable at `ℚ`.
The slice integrator is modelled over `ℝ` (it uses `sqrt`, `acos`, `atan2`).
-/

namespace FreeSasa

/-- A 3-D point, mirroring one `(x,y,z)` entry of the flat coordinate buffer. -/
structure P3 (K : Type) where
  x : K
  y : K
  z : K
deriving DecidableEq, Repr

instance {K : Type} [Inhabited K] : Inhabited (P3 K) := ⟨⟨default, default, default⟩⟩

section NB

variable {K : Type} [LinearOrderedField K] [FloorRing K]

/-- `max_array` from nb.c: fold of `fmax` over the array starting at 0
    (assumes the true maximum is positive). -/
def max_array (l : List K) : K := l.foldl max 0

/-- The geometry of the cell grid from `cell_list`: lower bounds of the padded
    bounding box, cell size `d`, and cell counts along each axis. -/
structure CellGrid (K : Type) where
  x_min : K
  y_min : K
  z_min : K
  d : K
  nx : ℕ
  ny : ℕ
  nz : ℕ

/-- The running minimum of `f` over the cloud, seeded at atom 0 (the C code
    folds `fmin` starting from `v[0]`). -/
def cloudMin (f : P3 K → K) (coords : List (P3 K)) : K :=
  coords.tail.foldl (fun m p => min m (f p)) (f (coords.headD ⟨0, 0, 0⟩))

/-- The running maximum of `f` over the cloud, seeded at atom 0. -/
def cloudMax (f : P3 K → K) (coords : List (P3 K)) : K :=
  coords.tail.foldl (fun m p => max m (f p)) (f (coords.headD ⟨0, 0, 0⟩))

/-- `cell_list_bounds`: bounding box of the point cloud padded by `d/2`,
    cell counts `⌈extent/d⌉` along each axis. The C code computes the six
    folds in a single pass starting from atom 0; here each fold is written
    separately (same values). `n ≥ 1` is assumed by the C code (`coord_i(0)`);
    for the empty list the fold seeds are 0. -/
def cellGridNew (cell_size : K) (coords : List (P3 K)) : CellGrid K :=
  let xlo := cloudMin (fun p => p.x) coords
  let xhi := cloudMax (fun p => p.x) coords
  let ylo := cloudMin (fun p => p.y) coords
  let yhi := cloudMax (fun p => p.y) coords
  let zlo := cloudMin (fun p => p.z) coords
  let zhi := cloudMax (fun p => p.z) coords
  { x_min := xlo - cell_size / 2
    y_min := ylo - cell_size / 2
    z_min := zlo - cell_size / 2
    d := cell_size
    nx := (Int.ceil (((xhi + cell_size / 2) - (xlo - cell_size / 2)) / cell_size)).toNat
    ny := (Int.ceil (((yhi + cell_size / 2) - (ylo - cell_size / 2)) / cell_size)).toNat
    nz := (Int.ceil (((zhi + cell_size / 2) - (zlo - cell_size / 2)) / cell_size)).toNat }

/-- `coord2cell_index`, as the cell triple before linearization: truncation of
    `(p − origin)/d` on each axis. The C cast-to-int truncates toward zero; on
    the cloud itself the argument is ≥ `1/2` (the box is padded by `d/2`), so
    truncation coincides with `⌊·⌋`, and `Int.toNat` is the identity there. -/
def cellTriple (g : CellGrid K) (p : P3 K) : ℕ × ℕ × ℕ :=
  ((Int.floor ((p.x - g.x_min) / g.d)).toNat,
   (Int.floor ((p.y - g.y_min) / g.d)).toNat,
   (Int.floor ((p.z - g.z_min) / g.d)).toNat)

/-- `fill_cells`: the atoms assigned to a given cell, in increasing index
    order (the C code appends atom `i` in the loop over `i`). -/
def cellAtoms (g : CellGrid K) (coords : List (P3 K)) (c : ℕ × ℕ × ℕ) : List ℕ :=
  (List.range coords.length).filter (fun a => cellTriple g (coords.getD a ⟨0, 0, 0⟩) = c)

/-- `fill_nb`: the forward neighbors of cell `(ix,iy,iz)` (including itself):
    all in-range cells at displacement at most one per axis whose displacement
    components sum to a non-negative number, in the loop order of the C code
    (`i` outer, then `j`, then `k`). -/
def fwdCells (nx ny nz : ℕ) (c : ℕ × ℕ × ℕ) : List (ℕ × ℕ × ℕ) :=
  let ix := c.1; let iy := c.2.1; let iz := c.2.2
  let xmin := if 0 < ix then ix - 1 else 0
  let xmax := if ix < nx - 1 then ix + 1 else ix
  let ymin := if 0 < iy then iy - 1 else 0
  let ymax := if iy < ny - 1 then iy + 1 else iy
  let zmin := if 0 < iz then iz - 1 else 0
  let zmax := if iz < nz - 1 then iz + 1 else iz
  (List.range' xmin (xmax + 1 - xmin)).flatMap (fun (i : ℕ) =>
    (List.range' ymin (ymax + 1 - ymin)).flatMap (fun (j : ℕ) =>
      (List.range' zmin (zmax + 1 - zmin)).filterMap (fun (k : ℕ) =>
        if 0 ≤ (i : ℤ) - (ix : ℤ) + ((j : ℤ) - (iy : ℤ)) + ((k : ℤ) - (iz : ℤ))
        then some (i, j, k) else none)))

/-- The contact test shared by `nb_calc_cell_pair` and `sasa_get_contacts`:
    per-axis squared prune against `(ri+rj)²` followed by the squared 3-D
    distance comparison. -/
def contactTest (pi pj : P3 K) (ri rj : K) : Bool :=
  let cut2 := (ri + rj) * (ri + rj)
  if (pj.x - pi.x) * (pj.x - pi.x) > cut2 ∨
     (pj.y - pi.y) * (pj.y - pi.y) > cut2 ∨
     (pj.z - pi.z) * (pj.z - pi.z) > cut2 then false
  else
    decide ((pj.x - pi.x) * (pj.x - pi.x) + (pj.y - pi.y) * (pj.y - pi.y) +
            (pj.z - pi.z) * (pj.z - pi.z) < cut2)

/-- One recorded call of `nb_add_pair`: the pair `(i,j)` with the signed
    coordinate differences `dx = xj − xi`, `dy = yj − yi`. -/
structure NbEvent (K : Type) where
  i : ℕ
  j : ℕ
  dx : K
  dy : K
deriving DecidableEq, Repr

/-- The candidate-pair filter of the inner loop of `nb_calc_cell_pair`
    (and of `sasa_get_contacts`): the pair is kept iff it passes
    `contactTest`. -/
def pairEvent (coords : List (P3 K)) (radii : List K) (p : ℕ × ℕ) : Option (NbEvent K) :=
  let pa := coords.getD p.1 ⟨0, 0, 0⟩
  let pb := coords.getD p.2 ⟨0, 0, 0⟩
  if contactTest pa pb (radii.getD p.1 0) (radii.getD p.2 0)
  then some ⟨p.1, p.2, pb.x - pa.x, pb.y - pa.y⟩ else none

/-- The ordered pairs `(l[i], l[j])` with `i < j`, in the doubly nested loop
    order used by `nb_calc_cell_pair` when `ci == cj` and by
    `sasa_get_contacts` (`i` ascending, inner `j` from `i+1`). -/
def ordPairs : List ℕ → List (ℕ × ℕ)
  | [] => []
  | a :: rest => (rest.map (fun b => (a, b))) ++ ordPairs rest

/-- The candidate pairs scanned by `nb_calc_cell_pair` for the cell pair
    `(cA, cB)`: position pairs `i < j` when the two cells coincide
    (pointer equality in C, triple equality here), all cross pairs
    otherwise. -/
def cellPairList (g : CellGrid K) (coords : List (P3 K)) (cA cB : ℕ × ℕ × ℕ) :
    List (ℕ × ℕ) :=
  if cA = cB then ordPairs (cellAtoms g coords cA)
  else (cellAtoms g coords cA).flatMap (fun a => (cellAtoms g coords cB).map (fun b => (a, b)))

/-- Decodes a linear cell index `ic = ix + nx*(iy + ny*iz)` (the inverse of
    `cell_index`). `nb_fill_list` walks cells in linear index order. -/
def decodeCell (nx ny : ℕ) (ic : ℕ) : ℕ × ℕ × ℕ :=
  (ic % nx, ic / nx % ny, ic / (nx * ny))

/-- `nb_fill_list` over the grid built by `freesasa_nb_new` with
    `cell_size = 2*max_array(radii)`: the sequence of `nb_add_pair` calls, in
    program order. -/
def nbEvents (coords : List (P3 K)) (radii : List K) : List (NbEvent K) :=
  let g := cellGridNew (2 * max_array radii) coords
  (List.range (g.nx * g.ny * g.nz)).flatMap (fun ic =>
    let cA := decodeCell g.nx g.ny ic
    (fwdCells g.nx g.ny g.nz cA).flatMap (fun cB =>
      (cellPairList g coords cA cB).filterMap (pairEvent coords radii)))

/-- Whether an `nb_add_pair` call touches atom `i` (it appends to both
    `nb[e.i]` and `nb[e.j]`). -/
def touches (i : ℕ) (e : NbEvent K) : Bool := e.i = i || e.j = i

/-- The adjacency list `nb[i]`: each `nb_add_pair (a,b,..)` appends `b` to
    `nb[a]` and `a` to `nb[b]`, in call order. -/
def nbList (evs : List (NbEvent K)) (i : ℕ) : List ℕ :=
  (evs.filter (touches i)).map (fun e => if e.i = i then e.j else e.i)

/-- The parallel array `nb_xd[i]`: `dx` on side `e.i`, `−dx` on side `e.j`. -/
def nbXd (evs : List (NbEvent K)) (i : ℕ) : List K :=
  (evs.filter (touches i)).map (fun e => if e.i = i then e.dx else -e.dx)

/-- The parallel array `nb_yd[i]`: `dy` on side `e.i`, `−dy` on side `e.j`. -/
def nbYd (evs : List (NbEvent K)) (i : ℕ) : List K :=
  (evs.filter (touches i)).map (fun e => if e.i = i then e.dy else -e.dy)

/-- `freesasa_nb_new`'s adjacency lists. -/
def freesasaNb (coords : List (P3 K)) (radii : List K) (i : ℕ) : List ℕ :=
  nbList (nbEvents coords radii) i

/-- `sasa_get_contacts` (sasa_lr.c): plain double loop over all `i < j`
    with the same contact test, appending symmetrically. -/
def contactEvents (coords : List (P3 K)) (radii : List K) : List (NbEvent K) :=
  (ordPairs (List.range coords.length)).filterMap (pairEvent coords radii)

/-- The `nb[i]` array produced by `sasa_get_contacts`. -/
def sasaContacts (coords : List (P3 K)) (radii : List K) (i : ℕ) : List ℕ :=
  nbList (contactEvents coords radii) i

end NB

/-- The parallel array `nb_xyd[i]`: the 2-D distance `sqrt(dx²+dy²)`,
    computed once per `nb_add_pair` call and stored identically on both
    sides. (Over `ℝ`, for the rational model of the inputs.) -/
noncomputable def nbXyd (evs : List (NbEvent ℚ)) (i : ℕ) : List ℝ :=
  (evs.filter (touches i)).map (fun e => Real.sqrt ((e.dx : ℝ) ^ 2 + (e.dy : ℝ) ^ 2))

/-- Well-formedness of a recorded `nb_add_pair` trace: no self-pairs
    (the C code asserts `i != j`). -/
def EvWf {K : Type} (evs : List (NbEvent K)) : Prop := ∀ e ∈ evs, e.i ≠ e.j

/-! ## The Lee & Richards slice integrator (sasa_lr.c), over `ℝ` -/

noncomputable section LR

/-- `atan2(y, x)`: the polar angle of the vector `(x, y)`, in `(−π, π]`. -/
def atan2 (y x : ℝ) : ℝ := Complex.arg ⟨x, y⟩

/-- The normalization loop of `sasa_sum_angles`: repeatedly shift by `2π`
    until the value lies in `[−π, π]` (the C code's `for(;;)` around
    `d = bj - bi`). -/
def normLoop (x : ℝ) : ℝ :=
  if h1 : x > Real.pi then normLoop (x - 2 * Real.pi)
  else if h2 : x < -Real.pi then normLoop (x + 2 * Real.pi)
  else x
termination_by (Int.ceil ((|x| + Real.pi) / (2 * Real.pi))).toNat
decreasing_by
  · have hπ := Real.pi_pos
    have habs : |x| = x := abs_of_pos (lt_trans hπ h1)
    have hm2 : (2 : ℤ) ≤ Int.ceil ((|x| + Real.pi) / (2 * Real.pi)) := by
      rw [show ((2 : ℤ) : ℤ) = 1 + 1 by norm_num]
      rw [Int.add_one_le_iff]
      apply Int.lt_ceil.2
      rw [lt_div_iff (by positivity)]
      rw [habs]
      push_cast
      linarith
    rcases le_or_lt 0 (x - 2 * Real.pi) with hc | hc
    · have habs2 : |x - 2 * Real.pi| = x - 2 * Real.pi := abs_of_nonneg hc
      have he : (|x - 2 * Real.pi| + Real.pi) / (2 * Real.pi) =
          (|x| + Real.pi) / (2 * Real.pi) - 1 := by
        rw [habs, habs2]
        field_simp
        ring
      rw [he, Int.ceil_sub_one]
      omega
    · have habs2 : |x - 2 * Real.pi| = 2 * Real.pi - x := by
        rw [abs_of_neg hc]
        ring
      have hle : Int.ceil ((|x - 2 * Real.pi| + Real.pi) / (2 * Real.pi)) ≤ 1 := by
        apply Int.ceil_le.2
        rw [div_le_iff (by positivity)]
        rw [habs2]
        push_cast
        linarith
      omega
  · have hπ := Real.pi_pos
    have habs : |x| = -x := abs_of_neg (by linarith)
    have hm2 : (2 : ℤ) ≤ Int.ceil ((|x| + Real.pi) / (2 * Real.pi)) := by
      rw [show ((2 : ℤ) : ℤ) = 1 + 1 by norm_num]
      rw [Int.add_one_le_iff]
      apply Int.lt_ceil.2
      rw [lt_div_iff (by positivity)]
      rw [habs]
      push_cast
      linarith
    rcases le_or_lt (x + 2 * Real.pi) 0 with hc | hc
    · have habs2 : |x + 2 * Real.pi| = -(x + 2 * Real.pi) := by
        rcases lt_or_eq_of_le hc with hc' | hc'
        · exact abs_of_neg hc'
        · rw [hc']
          simp
      have he : (|x + 2 * Real.pi| + Real.pi) / (2 * Real.pi) =
          (|x| + Real.pi) / (2 * Real.pi) - 1 := by
        rw [habs, habs2]
        field_simp
        ring
      rw [he, Int.ceil_sub_one]
      omega
    · have habs2 : |x + 2 * Real.pi| = x + 2 * Real.pi := abs_of_pos hc
      have hle : Int.ceil ((|x + 2 * Real.pi| + Real.pi) / (2 * Real.pi)) ≤ 1 := by
        apply Int.ceil_le.2
        rw [div_le_iff (by positivity)]
        rw [habs2]
        push_cast
        linarith
      omega

/-- One interval of `sasa_sum_angles`' working arrays: half-width `a`,
    center `b`, and its `excluded` flag. -/
structure Iv where
  a : ℝ
  b : ℝ
  exc : Bool

/-- Reads `a[i]` (out-of-range reads never occur; the default is inert). -/
def getA (st : List Iv) (i : ℕ) : ℝ := (st.getD i ⟨0, 0, true⟩).a

/-- Reads `b[i]`. -/
def getB (st : List Iv) (i : ℕ) : ℝ := (st.getD i ⟨0, 0, true⟩).b

/-- Reads `excluded[i]`. -/
def getE (st : List Iv) (i : ℕ) : Bool := (st.getD i ⟨0, 0, true⟩).exc

/-- The normalized center gap `d = bj − bi` after the normalization loop. -/
def gapD (st : List Iv) (i j : ℕ) : ℝ := normLoop (getB st j - getB st i)

/-- The lower end `inf` of the merged interval (C: `min(bi−ai, bj−aj)` with
    `bj = bi + d`). -/
def mergeInf (st : List Iv) (i j : ℕ) : ℝ :=
  min (getB st i - getA st i) (getB st i + gapD st i j - getA st j)

/-- The upper end `sup` of the merged interval. -/
def mergeSup (st : List Iv) (i j : ℕ) : ℝ :=
  max (getB st i + getA st i) (getB st i + gapD st i j + getA st j)

/-- The merged half-width `(sup − inf)/2`. -/
def mergeA (st : List Iv) (i j : ℕ) : ℝ := (mergeSup st i j - mergeInf st i j) / 2

/-- The merged center `(inf + sup)/2`, before renormalization. -/
def mergeB0 (st : List Iv) (i j : ℕ) : ℝ := (mergeInf st i j + mergeSup st i j) / 2

/-- The single-step renormalization the C code applies to the merged
    center `b[i]`. -/
def renorm1 (x : ℝ) : ℝ :=
  if x > Real.pi then x - 2 * Real.pi else if x < -Real.pi then x + 2 * Real.pi else x

/-- The state after merging `j` into `i`: `a[i]`, `b[i]` updated in place,
    `a[j]` zeroed, `j` marked excluded (`b[j]` keeps its value). -/
def mergeSt (st : List Iv) (i j : ℕ) : List Iv :=
  (st.set i ⟨mergeA st i j, renorm1 (mergeB0 st i j), false⟩).set j ⟨0, getB st j, true⟩

/-- The inner `j` loop of `sasa_sum_angles` for a fixed `i`: scans the listed
    `j` in order; skips excluded `j` and `j = i`; normalizes the center gap;
    on overlap merges `j` into `i`. Returns `none` when a merged half-width
    exceeds `π` (C: `return 0`), otherwise the updated state, `n_exc`,
    `n_overlap`, and whether the `++n_exc == n_buried-1` break fired. -/
def innerLoop (n i : ℕ) :
    List ℕ → List Iv → ℕ → ℕ → Option (List Iv × ℕ × ℕ × Bool)
  | [], st, nexc, nov => some (st, nexc, nov, false)
  | j :: js, st, nexc, nov =>
    if getE st j = true ∨ i = j then innerLoop n i js st nexc nov
    else if |gapD st i j| > getA st i + getA st j then innerLoop n i js st nexc nov
    else if mergeA st i j > Real.pi then none
    else if nexc + 1 = n - 1 then some (mergeSt st i j, nexc + 1, nov + 1, true)
    else innerLoop n i js (mergeSt st i j) (nexc + 1) (nov + 1)

/-- The outer `i` loop of the merging pass; after each inner scan the C code
    breaks when `n_exc == n_buried - 1`. Returns the state and `n_overlap`,
    or `none` for the early `return 0`. -/
def outerLoop (n : ℕ) :
    List ℕ → List Iv → ℕ → ℕ → Option (List Iv × ℕ)
  | [], st, _, nov => some (st, nov)
  | i :: is, st, nexc, nov =>
    if getE st i = true then outerLoop n is st nexc nov
    else
      match innerLoop n i (List.range n) st nexc nov with
      | none => none
      | some (st', nexc', nov', _) =>
        if nexc' = n - 1 then some (st', nov')
        else outerLoop n is st' nexc' nov'

/-- Compaction before the recursive call: the non-excluded intervals, in
    order. -/
def compact (st : List Iv) : List (ℝ × ℝ) :=
  st.filterMap (fun t => if t.exc then none else some (t.a, t.b))

/-- The number of excluded entries of a working state. -/
def countExc (st : List Iv) : ℕ := (st.filter (fun t => t.exc)).length

/-- `sasa_sum_angles` with explicit recursion fuel, one unit per call:
    run one merging pass; `some 0` for the early `return 0`; recurse on the
    compacted intervals when any overlap was merged; otherwise
    `2π − Σ 2·a[i]`. `none` only when the fuel runs out, which never happens
    at fuel `max 1 n` (see the termination theorem). -/
def sumAnglesFuel : ℕ → List (ℝ × ℝ) → Option ℝ
  | 0, _ => none
  | fuel + 1, l =>
    let n := l.length
    let st0 : List Iv := l.map (fun p => ⟨p.1, p.2, false⟩)
    match outerLoop n (List.range n) st0 0 0 with
    | none => some 0
    | some (st', nov) =>
      if nov ≠ 0 then sumAnglesFuel fuel (compact st')
      else some (2 * Real.pi - (st'.map (fun t => 2 * t.a)).sum)

/-- `sasa_sum_angles`, at the sufficient fuel `max 1 n`. -/
def sumAngles (l : List (ℝ × ℝ)) : ℝ :=
  (sumAnglesFuel (max 1 l.length) l).getD 0

/-- The half-width of the buried arc on circle `i` from a properly
    intersecting circle `j`: `acos((ri² + d² − rj²)/(2·ri·d))`. -/
def alphaFor (ri rj d : ℝ) : ℝ := Real.arccos ((ri * ri + d * d - rj * rj) / (2 * ri * d))

/-- Per-slice data of one in-slice atom: `(x, y)` center, in-slice radius
    `r`, L&R weight `DR`, and the original atom index (`idx` in the C code). -/
structure SliceAtom where
  x : ℝ
  y : ℝ
  r : ℝ
  dr : ℝ
  idx : ℕ

/-- The slice record built for an admitted atom `i`: `(x, y)` center,
    `r = sqrt(R_i² − d²)`, and `DR = R_i/r·(δ/2 + min(δ/2, R_i − d))`
    (the C ternary), with the original index. -/
def mkSliceAtom (coords : List (P3 ℝ)) (radii : List ℝ) (delta z : ℝ) (i : ℕ) : SliceAtom :=
  let ri := radii.getD i 0
  let d := |(coords.getD i ⟨0, 0, 0⟩).z - z|
  ⟨(coords.getD i ⟨0, 0, 0⟩).x, (coords.getD i ⟨0, 0, 0⟩).y,
    Real.sqrt (ri * ri - d * d),
    ri / Real.sqrt (ri * ri - d * d) *
      (delta / 2 + (if delta / 2 < ri - d then delta / 2 else ri - d)), i⟩

/-- The in-slice filter of `sasa_add_slice_area`: atoms with `|z_i − z| < R_i`
    in index order. -/
def sliceAtoms (coords : List (P3 ℝ)) (radii : List ℝ) (delta z : ℝ) : List SliceAtom :=
  (List.range coords.length).filterMap (fun i =>
    if |(coords.getD i ⟨0, 0, 0⟩).z - z| < radii.getD i 0
    then some (mkSliceAtom coords radii delta z i) else none)

/-- The slice-restricted adjacency of slice atom `s`: walk the full 3-D
    neighbor list of its original atom, keep the in-slice neighbors, and
    remap them through `xdi` (the first slice position holding that index). -/
def nbSlice (coords : List (P3 ℝ)) (radii : List ℝ) (delta z : ℝ)
    (nb : ℕ → List ℕ) (s : ℕ) : List ℕ :=
  let sa := sliceAtoms coords radii delta z
  (nb (sa.getD s ⟨0, 0, 0, 0, 0⟩).idx).filterMap (fun j2 =>
    if |(coords.getD j2 ⟨0, 0, 0⟩).z - z| < radii.getD j2 0
    then some (sa.findIdx (fun t => t.idx = j2)) else none)

/-- The inner neighbor scan of `sasa_exposed_arcs` for slice atom `i`:
    collects the buried arcs `(α, β)` in scan order, marks circles entirely
    inside `i` as buried, and reports whether `i` itself was found buried
    (the C code then breaks out of the scan). -/
def arcsInner (sa : List SliceAtom) (i : ℕ) :
    List ℕ → List Bool → (List (ℝ × ℝ) × List Bool × Bool)
  | [], bur => ([], bur, false)
  | j :: js, bur =>
    let ti := sa.getD i ⟨0, 0, 0, 0, 0⟩
    let tj := sa.getD j ⟨0, 0, 0, 0, 0⟩
    let xij := tj.x - ti.x
    let yij := tj.y - ti.y
    let d := Real.sqrt (xij * xij + yij * yij)
    if d ≥ ti.r + tj.r then arcsInner sa i js bur
    else if d + ti.r < tj.r then ([], bur, true)
    else if d + tj.r < ti.r then arcsInner sa i js (bur.set j true)
    else
      let rest := arcsInner sa i js bur
      ((alphaFor ti.r tj.r d, atan2 yij xij) :: rest.1, rest.2.1, rest.2.2)

/-- The outer loop of `sasa_exposed_arcs`: per slice atom, exposed measure 0
    when buried, else `sasa_sum_angles` of its buried arcs; buried marks
    persist across iterations. -/
def arcsLoop (sa : List SliceAtom) (nbs : ℕ → List ℕ) :
    List ℕ → List Bool → List ℝ
  | [], _ => []
  | i :: is, bur =>
    if bur.getD i false then 0 :: arcsLoop sa nbs is bur
    else
      let res := arcsInner sa i (nbs i) bur
      if res.2.2 then 0 :: arcsLoop sa nbs is res.2.1
      else sumAngles res.1 :: arcsLoop sa nbs is res.2.1

/-- `sasa_exposed_arcs` for one slice. -/
def exposedArcs (coords : List (P3 ℝ)) (radii : List ℝ) (delta z : ℝ)
    (nb : ℕ → List ℕ) : List ℝ :=
  let sa := sliceAtoms coords radii delta z
  arcsLoop sa (nbSlice coords radii delta z nb) (List.range sa.length)
    (List.replicate sa.length false)

/-- `sasa_add_slice_area`: adds `exposed_arc[i]·r[i]·DR[i]` into
    `sasa[idx[i]]` for every in-slice atom. -/
def addSliceArea (coords : List (P3 ℝ)) (radii : List ℝ) (delta : ℝ)
    (nb : ℕ → List ℕ) (z : ℝ) (sasa : ℕ → ℝ) : ℕ → ℝ :=
  let sa := sliceAtoms coords radii delta z
  let arcs := exposedArcs coords radii delta z nb
  (sa.zip arcs).foldl
    (fun f t => Function.update f t.1.idx (f t.1.idx + t.2 * t.1.r * t.1.dr)) sasa

/-- The slice loop `for (z = min_z; z < max_z; z += delta)`: the visited
    slice centers, in order. -/
def sliceCenters (delta : ℝ) (hd : 0 < delta) (zmin zmax : ℝ) : List ℝ :=
  if zmin < zmax then zmin :: sliceCenters delta hd (zmin + delta) zmax else []
termination_by (Int.ceil ((zmax - zmin) / delta)).toNat
decreasing_by
  rename_i hlt
  have h1 : (0 : ℤ) < Int.ceil ((zmax - zmin) / delta) := by
    apply Int.lt_ceil.2
    push_cast
    exact div_pos (by linarith) hd
  have h2 : Int.ceil ((zmax - (zmin + delta)) / delta) =
      Int.ceil ((zmax - zmin) / delta) - 1 := by
    rw [show (zmax - (zmin + delta)) / delta = (zmax - zmin) / delta - 1 by
      field_simp
      ring]
    exact Int.ceil_sub_one _
  rw [h2]
  omega

/-- The z-range start of `sasalib_lee_richards`: fold of the atom z's from
    the `1e50` sentinel, minus the radius maximum, plus `δ/2`. -/
def lrMinZ (coords : List (P3 ℝ)) (radii : List ℝ) (delta : ℝ) : ℝ :=
  (coords.foldl (fun m p => if p.z < m then p.z else m) 1e50) - max_array radii +
    0.5 * delta

/-- The z-range end: fold of the atom z's from the `−1e50` sentinel, plus
    the radius maximum. -/
def lrMaxZ (coords : List (P3 ℝ)) (radii : List ℝ) : ℝ :=
  (coords.foldl (fun m p => if m < p.z then p.z else m) (-1e50)) + max_array radii

/-- `sasalib_lee_richards`, single-threaded path: `none` on empty
    coordinates (the C code warns and leaves `sasa` unwritten); otherwise
    the per-atom areas accumulated over all slices starting from the zeroed
    output, with contacts from `sasa_get_contacts` on the probe-augmented
    radii. -/
def lee_richards (coords : List (P3 ℝ)) (atom_radii : List ℝ)
    (probe_radius delta : ℝ) (hd : 0 < delta) : Option (ℕ → ℝ) :=
  if coords.length = 0 then none
  else
    let radii := atom_radii.map (fun r => r + probe_radius)
    let nb := sasaContacts coords radii
    some ((sliceCenters delta hd (lrMinZ coords radii delta)
        (lrMaxZ coords radii)).foldl
      (fun f z => addSliceArea coords radii delta nb z f) (fun _ => 0))

/-- Modelled from the spec (§4.2.1 wording of claim C3): the claimed slice
    start `min_i(z_i − R_i) + δ/2`, for comparison with the code's `lrMinZ`. -/
def specMinZ (coords : List (P3 ℝ)) (radii : List ℝ) (delta : ℝ) : ℝ :=
  match (coords.zip radii).map (fun p => p.1.z - p.2) with
  | [] => delta / 2
  | v :: vs => vs.foldl min v + delta / 2

/-- The state reached by the first merging pass of `sasa_sum_angles` on `k`
    copies of the interval `(al, β)`: the accumulator at position 0 (with
    current center `b'`), then `t` already-merged copies, then `rem`
    untouched copies. -/
def stMid (al β b' : ℝ) (t rem : ℕ) : List Iv :=
  ⟨al, b', false⟩ ::
    (List.replicate t ⟨0, β, true⟩ ++ List.replicate rem ⟨al, β, false⟩)

/-- The working-array invariant of `sasa_sum_angles`: half-width in `[0, π]`,
    center in `[−π, π]`. -/
def IvOk (t : Iv) : Prop := 0 ≤ t.a ∧ t.a ≤ Real.pi ∧ |t.b| ≤ Real.pi

/-- The same invariant on input pairs `(α, β)`. -/
def pOk (p : ℝ × ℝ) : Prop := 0 ≤ p.1 ∧ p.1 ≤ Real.pi ∧ |p.2| ≤ Real.pi

/-- Circular separation of two arcs in shifted center coordinates: the two
    half-widths fit both between the centers and around the wrap. -/
def Rsep (p q : ℝ × ℝ) : Prop :=
  p.1 + q.1 < |q.2 - p.2| ∧ p.1 + q.1 < 2 * Real.pi - |q.2 - p.2|

/-- Shift a center from `[−π, π]` into `[0, 2π)`. -/
def shiftUp (b : ℝ) : ℝ := if b < 0 then b + 2 * Real.pi else b

end LR

/-- Concrete LR input for claim C3: atoms at z = 0 with R = 1 and z = 10
    with R = 2, slice thickness δ = 1. -/
def c3Coords : List (P3 ℝ) := [⟨0, 0, 0⟩, ⟨0, 0, 10⟩]

/-- Radii for `c3Coords`. -/
def c3Radii : List ℝ := [1, 2]

/-- Concrete input: two atoms of contact radius 1 at (0,1,0) and (1,0,0).
    Their center distance is √2 < 2, and they land in the cells
    (0,1,0) and (1,0,0) of the 2×2×1 grid — a cell pair whose displacement
    (1,−1,0) sums to zero. -/
def cexCoords : List (P3 ℚ) := [⟨0, 1, 0⟩, ⟨1, 0, 0⟩]

/-- Radii for `cexCoords`. -/
def cexRadii : List ℚ := [1, 1]

end FreeSasa

namespace FreeSasa

/-! ## Arithmetic helpers for concrete evaluation -/

theorem qceil_toNat {x : ℚ} {n : ℕ} (h1 : (n : ℚ) - 1 < x) (h2 : x ≤ n) :
    (Int.ceil x).toNat = n := by
  have h : Int.ceil x = (n : ℤ) := by
    rw [Int.ceil_eq_iff]
    constructor
    · push_cast
      exact h1
    · push_cast
      exact h2
  rw [h]
  simp

theorem qfloor_toNat {x : ℚ} {n : ℕ} (h1 : (n : ℚ) ≤ x) (h2 : x < n + 1) :
    (Int.floor x).toNat = n := by
  have h : Int.floor x = (n : ℤ) := by
    rw [Int.floor_eq_iff]
    · constructor
      · push_cast
        exact h1
      · push_cast
        exact h2
  rw [h]
  simp

/-! ## Evaluation of the neighbor pipeline at the concrete input `cexCoords` -/

theorem cex_grid :
    cellGridNew (2 * max_array cexRadii) cexCoords = ⟨-1, -1, -1, 2, 2, 2, 1⟩ := by
  have hm : 2 * max_array cexRadii = 2 := by norm_num [max_array, cexRadii]
  rw [hm]
  norm_num [cellGridNew, cloudMin, cloudMax, cexCoords]
  apply qceil_toNat <;> norm_num

theorem cex_triple0 : cellTriple ⟨-1, -1, -1, 2, 2, 2, 1⟩ (⟨0, 1, 0⟩ : P3 ℚ) = (0, 1, 0) := by
  rw [cellTriple, Prod.mk.injEq, Prod.mk.injEq]
  refine ⟨?_, ?_, ?_⟩ <;> apply qfloor_toNat <;> norm_num

theorem cex_triple1 : cellTriple ⟨-1, -1, -1, 2, 2, 2, 1⟩ (⟨1, 0, 0⟩ : P3 ℚ) = (1, 0, 0) := by
  rw [cellTriple, Prod.mk.injEq, Prod.mk.injEq]
  refine ⟨?_, ?_, ?_⟩ <;> apply qfloor_toNat <;> norm_num

theorem cex_atoms00 : cellAtoms ⟨-1, -1, -1, 2, 2, 2, 1⟩ cexCoords (0, 0, 0) = [] := by
  simp [-Prod.mk_zero_zero, cellAtoms, cexCoords, List.range_succ, cex_triple0, cex_triple1]

theorem cex_atoms10 : cellAtoms ⟨-1, -1, -1, 2, 2, 2, 1⟩ cexCoords (1, 0, 0) = [1] := by
  simp [-Prod.mk_zero_zero, cellAtoms, cexCoords, List.range_succ, cex_triple0, cex_triple1]

theorem cex_atoms01 : cellAtoms ⟨-1, -1, -1, 2, 2, 2, 1⟩ cexCoords (0, 1, 0) = [0] := by
  simp [-Prod.mk_zero_zero, cellAtoms, cexCoords, List.range_succ, cex_triple0, cex_triple1]

theorem cex_atoms11 : cellAtoms ⟨-1, -1, -1, 2, 2, 2, 1⟩ cexCoords (1, 1, 0) = [] := by
  simp [-Prod.mk_zero_zero, cellAtoms, cexCoords, List.range_succ, cex_triple0, cex_triple1]

theorem cex_fwd_01 : fwdCells 2 2 1 (0, 1, 0) = [(0, 1, 0), (1, 0, 0), (1, 1, 0)] := by decide

theorem cex_fwd_10 : fwdCells 2 2 1 (1, 0, 0) = [(0, 1, 0), (1, 0, 0), (1, 1, 0)] := by decide

theorem cex_fwd_00 : fwdCells 2 2 1 (0, 0, 0) = [(0, 0, 0), (0, 1, 0), (1, 0, 0), (1, 1, 0)] := by
  decide

theorem cex_fwd_11 : fwdCells 2 2 1 (1, 1, 0) = [(1, 1, 0)] := by decide

theorem cex_ev10 : pairEvent cexCoords cexRadii (1, 0) = some ⟨1, 0, -1, 1⟩ := by
  norm_num [pairEvent, cexCoords, cexRadii, contactTest]

theorem cex_ev01 : pairEvent cexCoords cexRadii (0, 1) = some ⟨0, 1, 1, -1⟩ := by
  norm_num [pairEvent, cexCoords, cexRadii, contactTest]

theorem cex_events : nbEvents cexCoords cexRadii = [⟨1, 0, -1, 1⟩, ⟨0, 1, 1, -1⟩] := by
  rw [nbEvents, cex_grid]
  simp [-Prod.mk_zero_zero, show (2 * 2 * 1 : ℕ) = 4 from rfl, List.range_succ, decodeCell,
        cex_fwd_00, cex_fwd_01, cex_fwd_10, cex_fwd_11,
        cellPairList, cex_atoms00, cex_atoms01, cex_atoms10, cex_atoms11,
        ordPairs, cex_ev10, cex_ev01]

theorem cex_nb0 : freesasaNb cexCoords cexRadii 0 = [1, 1] := by
  simp [freesasaNb, cex_events, nbList, touches]

theorem cex_nb1 : freesasaNb cexCoords cexRadii 1 = [0, 0] := by
  simp [freesasaNb, cex_events, nbList, touches]

/-- C2: the claim that `freesasa_nb_new` emits every qualifying pair exactly
once fails on the code. At coordinates (0,1,0), (1,0,0) with radii 1, 1 the
pair {0,1} qualifies (center distance √2 < 2 = R₀+R₁), but the two occupied
cells (0,1,0) and (1,0,0) of the 2×2×1 grid each list the other as a forward
neighbor — their displacement (1,−1,0) has zero component sum, so the
predicate `(i-ix)+(j-iy)+(k-iz) ≥ 0` accepts both directions — hence
`nb_add_pair` fires twice for the same unordered pair and atom 1 occurs twice
in `nb[0]` (and 0 twice in `nb[1]`), contradicting the code's own
"no double counting" comment. -/
theorem freesasa_nb_new_double_counts :
    Real.sqrt (((1 : ℝ) - 0) ^ 2 + ((0 : ℝ) - 1) ^ 2 + ((0 : ℝ) - 0) ^ 2) < 1 + 1 ∧
    (1, 0, 0) ∈ fwdCells 2 2 1 (0, 1, 0) ∧
    (0, 1, 0) ∈ fwdCells 2 2 1 (1, 0, 0) ∧
    (freesasaNb cexCoords cexRadii 0).count 1 = 2 ∧
    (freesasaNb cexCoords cexRadii 1).count 0 = 2 := by
  refine ⟨?_, ?_, ?_, ?_, ?_⟩
  · have h2 : ((1 : ℝ) - 0) ^ 2 + ((0 : ℝ) - 1) ^ 2 + ((0 : ℝ) - 0) ^ 2 = 2 := by norm_num
    rw [h2, show (1 : ℝ) + 1 = 2 by norm_num]
    have h4 : Real.sqrt 2 < Real.sqrt 4 := by
      apply Real.sqrt_lt_sqrt <;> norm_num
    calc Real.sqrt 2 < Real.sqrt 4 := h4
      _ = 2 := by
          rw [show (4 : ℝ) = 2 ^ 2 by norm_num, Real.sqrt_sq] <;> norm_num
  · rw [cex_fwd_01]; simp
  · rw [cex_fwd_10]; simp
  · simp [cex_nb0]
  · simp [cex_nb1]

/-! ## Generic structure of the `nb_add_pair` trace -/

section EventLemmas

variable {K : Type} [LinearOrderedField K] [FloorRing K]

theorem touches_iff {i : ℕ} {e : NbEvent K} : touches i e = true ↔ e.i = i ∨ e.j = i := by
  simp [touches]

/-- Membership in `nb[i]`: `j` occurs iff some `nb_add_pair` call had
    endpoints `{i, j}` (in either order). -/
theorem mem_nbList {evs : List (NbEvent K)} (hwf : EvWf evs) {i j : ℕ} :
    j ∈ nbList evs i ↔ ∃ e ∈ evs, (e.i = i ∧ e.j = j) ∨ (e.i = j ∧ e.j = i) := by
  constructor
  · intro h
    obtain ⟨e, he, hv⟩ := List.mem_map.1 h
    obtain ⟨hev, ht⟩ := List.mem_filter.1 he
    rcases touches_iff.1 ht with h1 | h1
    · refine ⟨e, hev, Or.inl ⟨h1, ?_⟩⟩
      rw [if_pos h1] at hv
      exact hv
    · by_cases h2 : e.i = i
      · rw [if_pos h2] at hv
        exact ⟨e, hev, Or.inl ⟨h2, hv⟩⟩
      · rw [if_neg h2] at hv
        exact ⟨e, hev, Or.inr ⟨hv, h1⟩⟩
  · rintro ⟨e, hev, ⟨h1, h2⟩ | ⟨h1, h2⟩⟩
    · refine List.mem_map.2 ⟨e, List.mem_filter.2 ⟨hev, touches_iff.2 (Or.inl h1)⟩, ?_⟩
      rw [if_pos h1]
      exact h2
    · refine List.mem_map.2 ⟨e, List.mem_filter.2 ⟨hev, touches_iff.2 (Or.inr h2)⟩, ?_⟩
      have hne : e.i ≠ i := fun hc => hwf e hev (hc.trans h2.symm)
      rw [if_neg hne]
      exact h1

/-- No self-edges in a well-formed trace. -/
theorem not_mem_nbList_self {evs : List (NbEvent K)} (hwf : EvWf evs) (i : ℕ) :
    i ∉ nbList evs i := by
  intro h
  obtain ⟨e, hev, h1 | h1⟩ := (mem_nbList hwf).1 h <;>
    exact hwf e hev (h1.1.trans h1.2.symm)

/-- Symmetry: both sides are appended in the same `nb_add_pair` call. -/
theorem nbList_symm {evs : List (NbEvent K)} (hwf : EvWf evs) (i j : ℕ) :
    j ∈ nbList evs i ↔ i ∈ nbList evs j := by
  rw [mem_nbList hwf, mem_nbList hwf]
  constructor <;>
    · rintro ⟨e, hev, h | h⟩
      · exact ⟨e, hev, Or.inr h⟩
      · exact ⟨e, hev, Or.inl h⟩

end EventLemmas

/-! ## Well-formedness of the generated traces -/

section TraceWf

variable {K : Type} [LinearOrderedField K] [FloorRing K]

theorem ordPairs_mem_of_mem {l : List ℕ} {p : ℕ × ℕ} (hp : p ∈ ordPairs l) :
    p.1 ∈ l ∧ p.2 ∈ l := by
  induction l with
  | nil => simp [ordPairs] at hp
  | cons x rest ih =>
    rw [ordPairs, List.mem_append] at hp
    rcases hp with hp | hp
    · obtain ⟨b, hb, hpe⟩ := List.mem_map.1 hp
      rw [← hpe]
      exact ⟨List.mem_cons_self _ _, List.mem_cons_of_mem _ hb⟩
    · obtain ⟨h1, h2⟩ := ih hp
      exact ⟨List.mem_cons_of_mem _ h1, List.mem_cons_of_mem _ h2⟩

theorem ordPairs_ne {l : List ℕ} (h : l.Nodup) {p : ℕ × ℕ} (hp : p ∈ ordPairs l) :
    p.1 ≠ p.2 := by
  induction l with
  | nil => simp [ordPairs] at hp
  | cons x rest ih =>
    rw [List.nodup_cons] at h
    rw [ordPairs, List.mem_append] at hp
    rcases hp with hp | hp
    · obtain ⟨b, hb, hpe⟩ := List.mem_map.1 hp
      rw [← hpe]
      dsimp
      intro hc
      refine h.1 ?_
      rw [hc]
      exact hb
    · exact ih h.2 hp

theorem pairEvent_some {coords : List (P3 K)} {radii : List K} {p : ℕ × ℕ}
    {e : NbEvent K} (h : pairEvent coords radii p = some e) :
    e.i = p.1 ∧ e.j = p.2 := by
  rw [pairEvent] at h
  by_cases hc : contactTest (coords.getD p.1 ⟨0, 0, 0⟩) (coords.getD p.2 ⟨0, 0, 0⟩)
      (radii.getD p.1 0) (radii.getD p.2 0) = true
  · rw [if_pos hc] at h
    cases h
    exact ⟨rfl, rfl⟩
  · rw [if_neg hc] at h
    cases h

theorem cellAtoms_nodup (g : CellGrid K) (coords : List (P3 K)) (c : ℕ × ℕ × ℕ) :
    (cellAtoms g coords c).Nodup :=
  (List.nodup_range _).filter _

theorem mem_cellAtoms {g : CellGrid K} {coords : List (P3 K)} {c : ℕ × ℕ × ℕ} {a : ℕ} :
    a ∈ cellAtoms g coords c ↔
      a < coords.length ∧ cellTriple g (coords.getD a ⟨0, 0, 0⟩) = c := by
  simp [cellAtoms]

theorem cellPairList_ne {g : CellGrid K} {coords : List (P3 K)} {cA cB : ℕ × ℕ × ℕ}
    {p : ℕ × ℕ} (hp : p ∈ cellPairList g coords cA cB) : p.1 ≠ p.2 := by
  rw [cellPairList] at hp
  by_cases hc : cA = cB
  · rw [if_pos hc] at hp
    exact ordPairs_ne (cellAtoms_nodup g coords cA) hp
  · rw [if_neg hc] at hp
    obtain ⟨a, ha, hpm⟩ := List.mem_flatMap.1 hp
    obtain ⟨b, hb, hpe⟩ := List.mem_map.1 hpm
    rw [← hpe]
    intro hab
    dsimp at hab
    rw [hab] at ha
    exact hc ((mem_cellAtoms.1 ha).2.symm.trans (mem_cellAtoms.1 hb).2)

/-- The trace of `freesasa_nb_new` never records a self-pair. -/
theorem nbEvents_wf (coords : List (P3 K)) (radii : List K) : EvWf (nbEvents coords radii) := by
  intro e he
  rw [nbEvents] at he
  obtain ⟨ic, _, he⟩ := List.mem_flatMap.1 he
  obtain ⟨cB, _, he⟩ := List.mem_flatMap.1 he
  obtain ⟨p, hp, hpe⟩ := List.mem_filterMap.1 he
  obtain ⟨h1, h2⟩ := pairEvent_some hpe
  rw [h1, h2]
  exact cellPairList_ne hp

/-- The trace of `sasa_get_contacts` never records a self-pair. -/
theorem contactEvents_wf (coords : List (P3 K)) (radii : List K) :
    EvWf (contactEvents coords radii) := by
  intro e he
  rw [contactEvents] at he
  obtain ⟨p, hp, hpe⟩ := List.mem_filterMap.1 he
  obtain ⟨h1, h2⟩ := pairEvent_some hpe
  rw [h1, h2]
  exact ordPairs_ne (List.nodup_range _) hp

end TraceWf

/-! ## Claim C4: symmetry and reciprocal parallel-array consistency -/

theorem nbXd_getElem? (evs : List (NbEvent ℚ)) (i k : ℕ) :
    (nbXd evs i)[k]? = ((evs.filter (touches i))[k]?).map
      (fun e => if e.i = i then e.dx else -e.dx) :=
  List.getElem?_map _ _ _

theorem nbYd_getElem? (evs : List (NbEvent ℚ)) (i k : ℕ) :
    (nbYd evs i)[k]? = ((evs.filter (touches i))[k]?).map
      (fun e => if e.i = i then e.dy else -e.dy) :=
  List.getElem?_map _ _ _

theorem nbXyd_getElem? (evs : List (NbEvent ℚ)) (i k : ℕ) :
    (nbXyd evs i)[k]? = ((evs.filter (touches i))[k]?).map
      (fun e => Real.sqrt ((e.dx : ℝ) ^ 2 + (e.dy : ℝ) ^ 2)) :=
  List.getElem?_map _ _ _

/-- C4: whenever the neighbor construction records a contact, both adjacency
lists are appended in the same `nb_add_pair` call: membership is symmetric,
there are no self-edges, and every position `k` with `nb[i][k] = j` has a
reciprocal position `k'` with `nb[j][k'] = i` at which the parallel arrays
satisfy `nb_xd[j][k'] = −nb_xd[i][k]` and `nb_yd[j][k'] = −nb_yd[i][k]`,
while `nb_xyd` holds the identical value `sqrt(dx²+dy²)` on both sides. -/
theorem nb_add_pair_symmetric (coords : List (P3 ℚ)) (radii : List ℚ) :
    (∀ i j, j ∈ freesasaNb coords radii i ↔ i ∈ freesasaNb coords radii j) ∧
    (∀ i, i ∉ freesasaNb coords radii i) ∧
    (∀ (i k j : ℕ), (freesasaNb coords radii i)[k]? = some j →
      ∃ (k' : ℕ) (dx dy : ℚ),
        (nbXd (nbEvents coords radii) i)[k]? = some dx ∧
        (nbYd (nbEvents coords radii) i)[k]? = some dy ∧
        (freesasaNb coords radii j)[k']? = some i ∧
        (nbXd (nbEvents coords radii) j)[k']? = some (-dx) ∧
        (nbYd (nbEvents coords radii) j)[k']? = some (-dy) ∧
        (nbXyd (nbEvents coords radii) i)[k]? =
          some (Real.sqrt ((dx : ℝ) ^ 2 + (dy : ℝ) ^ 2)) ∧
        (nbXyd (nbEvents coords radii) j)[k']? =
          some (Real.sqrt ((dx : ℝ) ^ 2 + (dy : ℝ) ^ 2))) := by
  have hwf := nbEvents_wf coords radii
  refine ⟨fun i j => nbList_symm hwf i j, fun i => not_mem_nbList_self hwf i, ?_⟩
  intro i k j h
  rw [freesasaNb, nbList, List.getElem?_map] at h
  obtain ⟨e, hek, hev⟩ := Option.map_eq_some'.1 h
  have hemem : e ∈ (nbEvents coords radii).filter (touches i) := List.getElem?_mem hek
  obtain ⟨hin, htch⟩ := List.mem_filter.1 hemem
  have hij : e.i ≠ e.j := hwf e hin
  by_cases hca : e.i = i
  · -- the call was nb_add_pair(i, j, dx, dy)
    rw [if_pos hca] at hev
    have hji : j ≠ i := by
      rw [← hev, ← hca]
      exact hij.symm
    have hj : e ∈ (nbEvents coords radii).filter (touches j) :=
      List.mem_filter.2 ⟨hin, touches_iff.2 (Or.inr hev)⟩
    obtain ⟨k', hk'⟩ := List.mem_iff_getElem?.1 hj
    have hcb : e.i ≠ j := by
      rw [hca]
      exact hji.symm
    refine ⟨k', e.dx, e.dy, ?_, ?_, ?_, ?_, ?_, ?_, ?_⟩
    · rw [nbXd_getElem?, hek, Option.map_some', if_pos hca]
    · rw [nbYd_getElem?, hek, Option.map_some', if_pos hca]
    · rw [freesasaNb, nbList, List.getElem?_map, hk', Option.map_some', if_neg hcb, hca]
    · rw [nbXd_getElem?, hk', Option.map_some', if_neg hcb]
    · rw [nbYd_getElem?, hk', Option.map_some', if_neg hcb]
    · rw [nbXyd_getElem?, hek, Option.map_some']
    · rw [nbXyd_getElem?, hk', Option.map_some']
  · -- the call was nb_add_pair(j, i, dx, dy); the stored values flip sign
    rw [if_neg hca] at hev
    have hbj : e.j = i := by
      rcases touches_iff.1 htch with hc | hc
      · exact absurd hc hca
      · exact hc
    have hj : e ∈ (nbEvents coords radii).filter (touches j) :=
      List.mem_filter.2 ⟨hin, touches_iff.2 (Or.inl hev)⟩
    obtain ⟨k', hk'⟩ := List.mem_iff_getElem?.1 hj
    refine ⟨k', -e.dx, -e.dy, ?_, ?_, ?_, ?_, ?_, ?_, ?_⟩
    · rw [nbXd_getElem?, hek, Option.map_some', if_neg hca]
    · rw [nbYd_getElem?, hek, Option.map_some', if_neg hca]
    · rw [freesasaNb, nbList, List.getElem?_map, hk', Option.map_some', if_pos hev, hbj]
    · rw [nbXd_getElem?, hk', Option.map_some', if_pos hev, neg_neg]
    · rw [nbYd_getElem?, hk', Option.map_some', if_pos hev, neg_neg]
    · rw [nbXyd_getElem?, hek, Option.map_some']
      push_cast
      rw [neg_pow, neg_pow]
      norm_num
    · rw [nbXyd_getElem?, hk', Option.map_some']
      push_cast
      rw [neg_pow, neg_pow]
      norm_num

/-! ## Claim C1: bounding box, cell validity and cell adjacency -/

section CellBounds

variable {K : Type} [LinearOrderedField K] [FloorRing K]

theorem foldl_min_le_init (f : P3 K → K) :
    ∀ (l : List (P3 K)) (a : K), l.foldl (fun m q => min m (f q)) a ≤ a
  | [], a => le_refl a
  | q :: rest, a =>
    le_trans (foldl_min_le_init f rest (min a (f q))) (min_le_left _ _)

theorem foldl_min_le_mem (f : P3 K → K) {p : P3 K} :
    ∀ (l : List (P3 K)) (a : K), p ∈ l → l.foldl (fun m q => min m (f q)) a ≤ f p
  | q :: rest, a, hp => by
    rcases List.mem_cons.1 hp with h | h
    · subst h
      exact le_trans (foldl_min_le_init f rest _) (min_le_right _ _)
    · exact foldl_min_le_mem f rest _ h

theorem init_le_foldl_max (f : P3 K → K) :
    ∀ (l : List (P3 K)) (a : K), a ≤ l.foldl (fun m q => max m (f q)) a
  | [], a => le_refl a
  | q :: rest, a =>
    le_trans (le_max_left _ _) (init_le_foldl_max f rest (max a (f q)))

theorem mem_le_foldl_max (f : P3 K → K) {p : P3 K} :
    ∀ (l : List (P3 K)) (a : K), p ∈ l → f p ≤ l.foldl (fun m q => max m (f q)) a
  | q :: rest, a, hp => by
    rcases List.mem_cons.1 hp with h | h
    · subst h
      exact le_trans (le_max_right _ _) (init_le_foldl_max f rest _)
    · exact mem_le_foldl_max f rest _ h

theorem cloudMin_le {f : P3 K → K} {coords : List (P3 K)} {p : P3 K} (hp : p ∈ coords) :
    cloudMin f coords ≤ f p := by
  cases coords with
  | nil => cases hp
  | cons c rest =>
    rw [cloudMin]
    rcases List.mem_cons.1 hp with h | h
    · subst h
      exact foldl_min_le_init f rest _
    · exact foldl_min_le_mem f rest _ h

theorem le_cloudMax {f : P3 K → K} {coords : List (P3 K)} {p : P3 K} (hp : p ∈ coords) :
    f p ≤ cloudMax f coords := by
  cases coords with
  | nil => cases hp
  | cons c rest =>
    rw [cloudMax]
    rcases List.mem_cons.1 hp with h | h
    · subst h
      exact init_le_foldl_max f rest _
    · exact mem_le_foldl_max f rest _ h

theorem le_foldl_max_init : ∀ (l : List K) (a : K), a ≤ l.foldl max a
  | [], a => le_refl a
  | q :: rest, a => le_trans (le_max_left a q) (le_foldl_max_init rest _)

theorem le_foldl_max_mem {r : K} : ∀ (l : List K) (a : K), r ∈ l → r ≤ l.foldl max a
  | q :: rest, a, hr => by
    rcases List.mem_cons.1 hr with h | h
    · subst h
      exact le_trans (le_max_right a r) (le_foldl_max_init rest _)
    · exact le_foldl_max_mem rest _ h

theorem zero_le_max_array (l : List K) : 0 ≤ max_array l := le_foldl_max_init l 0

theorem le_max_array {l : List K} {r : K} (hr : r ∈ l) : r ≤ max_array l :=
  le_foldl_max_mem l 0 hr

/-- One axis of the in-grid bound: an in-cloud coordinate lands in
    `[0, n_axis)` after the padded-origin shift, truncation included. -/
theorem floor_axis_bounds {lo hi v d : K} (hd : 0 < d) (h1 : lo ≤ v) (h2 : v ≤ hi) :
    0 ≤ Int.floor ((v - (lo - d / 2)) / d) ∧
      Int.floor ((v - (lo - d / 2)) / d) < Int.ceil ((hi + d / 2 - (lo - d / 2)) / d) := by
  constructor
  · apply Int.floor_nonneg.2
    apply div_nonneg _ (le_of_lt hd)
    have : 0 < d / 2 := by positivity
    linarith
  · have hAB : (v - (lo - d / 2)) / d < (hi + d / 2 - (lo - d / 2)) / d := by
      gcongr
      · linarith
    by_contra hle
    push_neg at hle
    have h4 : ((Int.ceil ((hi + d / 2 - (lo - d / 2)) / d) : K)) ≤
        ((Int.floor ((v - (lo - d / 2)) / d) : K)) := by
      exact_mod_cast hle
    have h5 := Int.le_ceil ((hi + d / 2 - (lo - d / 2)) / d)
    have h6 := Int.floor_le ((v - (lo - d / 2)) / d)
    linarith

/-- Floors of two values within `d` of each other differ by at most one cell. -/
theorem floor_adj {u v d : K} (hd : 0 < d) (h : u - v < d) :
    Int.floor (u / d) ≤ Int.floor (v / d) + 1 := by
  have h1 : u / d ≤ (v + d) / d := by
    gcongr
    · linarith
  have h2 : (v + d) / d = v / d + 1 := by
    rw [add_div, div_self (ne_of_gt hd)]
  calc Int.floor (u / d) ≤ Int.floor (v / d + 1) := Int.floor_le_floor (h2 ▸ h1)
    _ = Int.floor (v / d) + 1 := Int.floor_add_one _

/-- Each coordinate of an in-cloud atom maps to a valid cell along x. -/
theorem cellTriple_x_lt {cs : K} {coords : List (P3 K)} (hd : 0 < cs) {p : P3 K}
    (hp : p ∈ coords) :
    0 ≤ Int.floor ((p.x - (cellGridNew cs coords).x_min) / cs) ∧
      (cellTriple (cellGridNew cs coords) p).1 < (cellGridNew cs coords).nx := by
  have h1 : cloudMin (fun q => q.x) coords ≤ p.x := cloudMin_le hp
  have h2 : p.x ≤ cloudMax (fun q => q.x) coords := le_cloudMax hp
  have hb := floor_axis_bounds hd h1 h2
  refine ⟨hb.1, ?_⟩
  have h2 := hb.2
  simp only [cellTriple, cellGridNew]
  omega

theorem cellTriple_y_lt {cs : K} {coords : List (P3 K)} (hd : 0 < cs) {p : P3 K}
    (hp : p ∈ coords) :
    0 ≤ Int.floor ((p.y - (cellGridNew cs coords).y_min) / cs) ∧
      (cellTriple (cellGridNew cs coords) p).2.1 < (cellGridNew cs coords).ny := by
  have h1 : cloudMin (fun q => q.y) coords ≤ p.y := cloudMin_le hp
  have h2 : p.y ≤ cloudMax (fun q => q.y) coords := le_cloudMax hp
  have hb := floor_axis_bounds hd h1 h2
  refine ⟨hb.1, ?_⟩
  have h2 := hb.2
  simp only [cellTriple, cellGridNew]
  omega

theorem cellTriple_z_lt {cs : K} {coords : List (P3 K)} (hd : 0 < cs) {p : P3 K}
    (hp : p ∈ coords) :
    0 ≤ Int.floor ((p.z - (cellGridNew cs coords).z_min) / cs) ∧
      (cellTriple (cellGridNew cs coords) p).2.2 < (cellGridNew cs coords).nz := by
  have h1 : cloudMin (fun q => q.z) coords ≤ p.z := cloudMin_le hp
  have h2 : p.z ≤ cloudMax (fun q => q.z) coords := le_cloudMax hp
  have hb := floor_axis_bounds hd h1 h2
  refine ⟨hb.1, ?_⟩
  have h2 := hb.2
  simp only [cellTriple, cellGridNew]
  omega

/-- Encoding a valid cell triple as `ix + nx*(iy + ny*iz)` (the C
    `cell_index`) and decoding it round-trips. -/
theorem decode_encode {nx ny : ℕ} {a b : ℕ} (c : ℕ) (ha : a < nx) (hb : b < ny) :
    decodeCell nx ny (a + nx * (b + ny * c)) = (a, b, c) := by
  have hnx : 0 < nx := by omega
  rw [decodeCell, Prod.mk.injEq, Prod.mk.injEq]
  refine ⟨?_, ?_, ?_⟩
  · rw [Nat.add_mul_mod_self_left, Nat.mod_eq_of_lt ha]
  · rw [Nat.add_mul_div_left _ _ hnx, Nat.div_eq_of_lt ha, Nat.zero_add,
      Nat.add_mul_mod_self_left, Nat.mod_eq_of_lt hb]
  · have hab : a + nx * b < nx * ny := by
      calc a + nx * b < nx + nx * b := by omega
        _ = nx * (b + 1) := by ring
        _ ≤ nx * ny := Nat.mul_le_mul_left nx (by omega)
    have hre : a + nx * (b + ny * c) = (a + nx * b) + (nx * ny) * c := by ring
    have hxy : 0 < nx * ny := Nat.mul_pos hnx (by omega)
    rw [hre, Nat.add_mul_div_left _ _ hxy, Nat.div_eq_of_lt hab, Nat.zero_add]

/-- The encoded linear index of a valid cell is in range. -/
theorem encode_lt {nx ny nz a b c : ℕ} (ha : a < nx) (hb : b < ny) (hc : c < nz) :
    a + nx * (b + ny * c) < nx * ny * nz := by
  calc a + nx * (b + ny * c) < nx + nx * (b + ny * c) := by omega
    _ = nx * (1 + b + ny * c) := by ring
    _ ≤ nx * (ny * nz) := by
        apply Nat.mul_le_mul_left
        calc 1 + b + ny * c ≤ ny + ny * c := by omega
          _ = ny * (1 + c) := by ring
          _ ≤ ny * nz := Nat.mul_le_mul_left ny (by omega)
    _ = nx * ny * nz := by ring

theorem mem_clampRange {n i t : ℕ} (ht : t < n) (h1 : (t : ℤ) ≤ (i : ℤ) + 1)
    (h2 : (i : ℤ) ≤ (t : ℤ) + 1) :
    (if 0 < i then i - 1 else 0) ≤ t ∧ t < (if i < n - 1 then i + 1 else i) + 1 := by
  constructor <;> split <;> omega

/-- Completeness of the forward enumeration: a valid cell `t` within one
    step of `c` per axis, whose displacement from `c` has non-negative
    component sum, appears in `fill_nb`'s list for `c`. -/
theorem mem_fwdCells {nx ny nz : ℕ} {c t : ℕ × ℕ × ℕ}
    (htx : t.1 < nx) (hty : t.2.1 < ny) (htz : t.2.2 < nz)
    (hax1 : (t.1 : ℤ) ≤ (c.1 : ℤ) + 1) (hax2 : (c.1 : ℤ) ≤ (t.1 : ℤ) + 1)
    (hay1 : (t.2.1 : ℤ) ≤ (c.2.1 : ℤ) + 1) (hay2 : (c.2.1 : ℤ) ≤ (t.2.1 : ℤ) + 1)
    (haz1 : (t.2.2 : ℤ) ≤ (c.2.2 : ℤ) + 1) (haz2 : (c.2.2 : ℤ) ≤ (t.2.2 : ℤ) + 1)
    (hsum : 0 ≤ (t.1 : ℤ) - (c.1 : ℤ) + ((t.2.1 : ℤ) - (c.2.1 : ℤ)) +
      ((t.2.2 : ℤ) - (c.2.2 : ℤ))) :
    t ∈ fwdCells nx ny nz c := by
  obtain ⟨tx, ty, tz⟩ := t
  obtain ⟨cx, cy, cz⟩ := c
  simp only at htx hty htz hax1 hax2 hay1 hay2 haz1 haz2 hsum
  have hx := mem_clampRange htx hax1 hax2
  have hy := mem_clampRange hty hay1 hay2
  have hz := mem_clampRange htz haz1 haz2
  simp only [fwdCells]
  refine List.mem_flatMap.2 ⟨tx, ?_, ?_⟩
  · rw [List.mem_range'_1]
    refine ⟨hx.1, ?_⟩
    have hle : (if 0 < cx then cx - 1 else 0) ≤ (if cx < nx - 1 then cx + 1 else cx) := by
      split <;> split <;> omega
    omega
  refine List.mem_flatMap.2 ⟨ty, ?_, ?_⟩
  · rw [List.mem_range'_1]
    refine ⟨hy.1, ?_⟩
    have hle : (if 0 < cy then cy - 1 else 0) ≤ (if cy < ny - 1 then cy + 1 else cy) := by
      split <;> split <;> omega
    omega
  refine List.mem_filterMap.2 ⟨tz, ?_, ?_⟩
  · rw [List.mem_range'_1]
    refine ⟨hz.1, ?_⟩
    have hle : (if 0 < cz then cz - 1 else 0) ≤ (if cz < nz - 1 then cz + 1 else cz) := by
      split <;> split <;> omega
    omega
  · rw [if_pos]
    omega

/-- Both endpoints, placed and distinct, occur in `ordPairs` in one order. -/
theorem ordPairs_of_mem {l : List ℕ} (h : l.Nodup) {a b : ℕ} (ha : a ∈ l) (hb : b ∈ l)
    (hab : a ≠ b) : (a, b) ∈ ordPairs l ∨ (b, a) ∈ ordPairs l := by
  induction l with
  | nil => cases ha
  | cons x rest ih =>
    rw [List.nodup_cons] at h
    rw [ordPairs]
    rcases List.mem_cons.1 ha with hax | har
    · subst hax
      have hbr : b ∈ rest := by
        rcases List.mem_cons.1 hb with hbx | hbr
        · exact absurd hbx.symm hab
        · exact hbr
      exact Or.inl (List.mem_append.2 (Or.inl (List.mem_map.2 ⟨b, hbr, rfl⟩)))
    · rcases List.mem_cons.1 hb with hbx | hbr
      · subst hbx
        exact Or.inr (List.mem_append.2 (Or.inl (List.mem_map.2 ⟨a, har, rfl⟩)))
      · rcases ih h.2 har hbr with hp | hp
        · exact Or.inl (List.mem_append.2 (Or.inr hp))
        · exact Or.inr (List.mem_append.2 (Or.inr hp))

/-- The axis prune never rejects a pair that passes the full squared test:
    `contactTest` holds iff the squared 3-D distance is below the cutoff. -/
theorem contactTest_iff {pa pb : P3 K} {ra rb : K} :
    contactTest pa pb ra rb = true ↔
      (pb.x - pa.x) * (pb.x - pa.x) + (pb.y - pa.y) * (pb.y - pa.y) +
        (pb.z - pa.z) * (pb.z - pa.z) < (ra + rb) * (ra + rb) := by
  rw [contactTest]
  split
  · rename_i hprune
    simp only [Bool.false_eq_true, false_iff, not_lt]
    rcases hprune with h | h | h
    · nlinarith [mul_self_nonneg (pb.y - pa.y), mul_self_nonneg (pb.z - pa.z)]
    · nlinarith [mul_self_nonneg (pb.x - pa.x), mul_self_nonneg (pb.z - pa.z)]
    · nlinarith [mul_self_nonneg (pb.x - pa.x), mul_self_nonneg (pb.y - pa.y)]
  · simp

/-- The contact test is symmetric in the two atoms. -/
theorem contactTest_comm (pa pb : P3 K) (ra rb : K) :
    contactTest pa pb ra rb = contactTest pb pa rb ra := by
  simp only [contactTest]
  have e1 : (pa.x - pb.x) * (pa.x - pb.x) = (pb.x - pa.x) * (pb.x - pa.x) := by ring
  have e2 : (pa.y - pb.y) * (pa.y - pb.y) = (pb.y - pa.y) * (pb.y - pa.y) := by ring
  have e3 : (pa.z - pb.z) * (pa.z - pb.z) = (pb.z - pa.z) * (pb.z - pa.z) := by ring
  have e4 : (rb + ra) * (rb + ra) = (ra + rb) * (ra + rb) := by ring
  rw [e1, e2, e3, e4]

theorem pairEvent_of_test {coords : List (P3 K)} {radii : List K} {p : ℕ × ℕ}
    (h : contactTest (coords.getD p.1 ⟨0, 0, 0⟩) (coords.getD p.2 ⟨0, 0, 0⟩)
      (radii.getD p.1 0) (radii.getD p.2 0) = true) :
    pairEvent coords radii p =
      some ⟨p.1, p.2, (coords.getD p.2 ⟨0, 0, 0⟩).x - (coords.getD p.1 ⟨0, 0, 0⟩).x,
        (coords.getD p.2 ⟨0, 0, 0⟩).y - (coords.getD p.1 ⟨0, 0, 0⟩).y⟩ := by
  rw [pairEvent, if_pos h]

theorem pairEvent_test {coords : List (P3 K)} {radii : List K} {p : ℕ × ℕ} {e : NbEvent K}
    (h : pairEvent coords radii p = some e) :
    contactTest (coords.getD p.1 ⟨0, 0, 0⟩) (coords.getD p.2 ⟨0, 0, 0⟩)
      (radii.getD p.1 0) (radii.getD p.2 0) = true := by
  rw [pairEvent] at h
  by_cases hc : contactTest (coords.getD p.1 ⟨0, 0, 0⟩) (coords.getD p.2 ⟨0, 0, 0⟩)
      (radii.getD p.1 0) (radii.getD p.2 0) = true
  · exact hc
  · rw [if_neg hc] at h
    cases h

theorem cellPairList_mem {g : CellGrid K} {coords : List (P3 K)} {cA cB : ℕ × ℕ × ℕ}
    {p : ℕ × ℕ} (hp : p ∈ cellPairList g coords cA cB) :
    p.1 ∈ cellAtoms g coords cA ∧
      (p.2 ∈ cellAtoms g coords cA ∨ p.2 ∈ cellAtoms g coords cB) := by
  rw [cellPairList] at hp
  by_cases hc : cA = cB
  · rw [if_pos hc] at hp
    have := ordPairs_mem_of_mem hp
    exact ⟨this.1, Or.inl this.2⟩
  · rw [if_neg hc] at hp
    obtain ⟨a, ha, hpm⟩ := List.mem_flatMap.1 hp
    obtain ⟨b, hb, hpe⟩ := List.mem_map.1 hpm
    rw [← hpe]
    exact ⟨ha, Or.inr hb⟩

/-- From a strict squared comparison to a strict absolute-value comparison. -/
theorem abs_lt_of_mul_self_lt {a b : K} (h : a * a < b * b) (hb : 0 < b) : |a| < b := by
  nlinarith [abs_nonneg a, abs_mul_abs_self a]

theorem list_getD_mem {α : Type} {l : List α} {i : ℕ} (d : α) (h : i < l.length) :
    l.getD i d ∈ l := by
  rw [List.getD_eq_getElem l d h]
  exact List.getElem_mem h

theorem cellGridNew_d (cs : K) (coords : List (P3 K)) : (cellGridNew cs coords).d = cs := rfl

theorem cellTriple_x_cast {cs : K} {coords : List (P3 K)} (hd : 0 < cs) {p : P3 K}
    (hp : p ∈ coords) :
    ((cellTriple (cellGridNew cs coords) p).1 : ℤ) =
      Int.floor ((p.x - (cellGridNew cs coords).x_min) / cs) := by
  have h := (cellTriple_x_lt hd hp).1
  simp only [cellTriple, cellGridNew_d]
  rw [Int.toNat_of_nonneg h]

theorem cellTriple_y_cast {cs : K} {coords : List (P3 K)} (hd : 0 < cs) {p : P3 K}
    (hp : p ∈ coords) :
    ((cellTriple (cellGridNew cs coords) p).2.1 : ℤ) =
      Int.floor ((p.y - (cellGridNew cs coords).y_min) / cs) := by
  have h := (cellTriple_y_lt hd hp).1
  simp only [cellTriple, cellGridNew_d]
  rw [Int.toNat_of_nonneg h]

theorem cellTriple_z_cast {cs : K} {coords : List (P3 K)} (hd : 0 < cs) {p : P3 K}
    (hp : p ∈ coords) :
    ((cellTriple (cellGridNew cs coords) p).2.2 : ℤ) =
      Int.floor ((p.z - (cellGridNew cs coords).z_min) / cs) := by
  have h := (cellTriple_z_lt hd hp).1
  simp only [cellTriple, cellGridNew_d]
  rw [Int.toNat_of_nonneg h]

/-- Two atoms within `cs` of each other on the x axis land in x-adjacent
    cells. -/
theorem triple_x_adj {cs : K} {coords : List (P3 K)} (hd : 0 < cs) {pa pb : P3 K}
    (ha : pa ∈ coords) (hb : pb ∈ coords) (hax : |pb.x - pa.x| < cs) :
    ((cellTriple (cellGridNew cs coords) pb).1 : ℤ) ≤
        (cellTriple (cellGridNew cs coords) pa).1 + 1 ∧
      ((cellTriple (cellGridNew cs coords) pa).1 : ℤ) ≤
        (cellTriple (cellGridNew cs coords) pb).1 + 1 := by
  rw [cellTriple_x_cast hd ha, cellTriple_x_cast hd hb]
  obtain ⟨hl, hr⟩ := abs_lt.1 hax
  constructor
  · exact floor_adj hd (by linarith)
  · exact floor_adj hd (by linarith)

theorem triple_y_adj {cs : K} {coords : List (P3 K)} (hd : 0 < cs) {pa pb : P3 K}
    (ha : pa ∈ coords) (hb : pb ∈ coords) (hay : |pb.y - pa.y| < cs) :
    ((cellTriple (cellGridNew cs coords) pb).2.1 : ℤ) ≤
        (cellTriple (cellGridNew cs coords) pa).2.1 + 1 ∧
      ((cellTriple (cellGridNew cs coords) pa).2.1 : ℤ) ≤
        (cellTriple (cellGridNew cs coords) pb).2.1 + 1 := by
  rw [cellTriple_y_cast hd ha, cellTriple_y_cast hd hb]
  obtain ⟨hl, hr⟩ := abs_lt.1 hay
  constructor
  · exact floor_adj hd (by linarith)
  · exact floor_adj hd (by linarith)

theorem triple_z_adj {cs : K} {coords : List (P3 K)} (hd : 0 < cs) {pa pb : P3 K}
    (ha : pa ∈ coords) (hb : pb ∈ coords) (haz : |pb.z - pa.z| < cs) :
    ((cellTriple (cellGridNew cs coords) pb).2.2 : ℤ) ≤
        (cellTriple (cellGridNew cs coords) pa).2.2 + 1 ∧
      ((cellTriple (cellGridNew cs coords) pa).2.2 : ℤ) ≤
        (cellTriple (cellGridNew cs coords) pb).2.2 + 1 := by
  rw [cellTriple_z_cast hd ha, cellTriple_z_cast hd hb]
  obtain ⟨hl, hr⟩ := abs_lt.1 haz
  constructor
  · exact floor_adj hd (by linarith)
  · exact floor_adj hd (by linarith)

/-- Constructor for membership in the `freesasa_nb_new` trace: exhibit the
    processed cell pair and the scanned candidate pair. -/
theorem mem_nbEvents_of {coords : List (P3 K)} {radii : List K}
    {cA cB : ℕ × ℕ × ℕ} {p : ℕ × ℕ} {e : NbEvent K}
    (hA1 : cA.1 < (cellGridNew (2 * max_array radii) coords).nx)
    (hA2 : cA.2.1 < (cellGridNew (2 * max_array radii) coords).ny)
    (hA3 : cA.2.2 < (cellGridNew (2 * max_array radii) coords).nz)
    (hB : cB ∈ fwdCells (cellGridNew (2 * max_array radii) coords).nx
      (cellGridNew (2 * max_array radii) coords).ny
      (cellGridNew (2 * max_array radii) coords).nz cA)
    (hp : p ∈ cellPairList (cellGridNew (2 * max_array radii) coords) coords cA cB)
    (he : pairEvent coords radii p = some e) :
    e ∈ nbEvents coords radii := by
  simp only [nbEvents]
  obtain ⟨a, b, c⟩ := cA
  refine List.mem_flatMap.2
    ⟨a + (cellGridNew (2 * max_array radii) coords).nx *
      (b + (cellGridNew (2 * max_array radii) coords).ny * c), ?_, ?_⟩
  · exact List.mem_range.2 (encode_lt hA1 hA2 hA3)
  · rw [decode_encode c hA1 hA2]
    exact List.mem_flatMap.2 ⟨cB, hB, List.mem_filterMap.2 ⟨p, hp, he⟩⟩

end CellBounds

/-! ## Soundness and completeness of the recorded traces -/

section TraceCorrect

variable {K : Type} [LinearOrderedField K] [FloorRing K]

/-- Soundness: every pair recorded by `freesasa_nb_new` passed the contact
    test, with in-range endpoint indices. -/
theorem nbEvents_sound {coords : List (P3 K)} {radii : List K} {e : NbEvent K}
    (he : e ∈ nbEvents coords radii) :
    e.i < coords.length ∧ e.j < coords.length ∧
      contactTest (coords.getD e.i ⟨0, 0, 0⟩) (coords.getD e.j ⟨0, 0, 0⟩)
        (radii.getD e.i 0) (radii.getD e.j 0) = true := by
  simp only [nbEvents] at he
  obtain ⟨ic, _, he⟩ := List.mem_flatMap.1 he
  obtain ⟨cB, _, he⟩ := List.mem_flatMap.1 he
  obtain ⟨p, hp, hpe⟩ := List.mem_filterMap.1 he
  obtain ⟨h1, h2⟩ := pairEvent_some hpe
  have hb := cellPairList_mem hp
  have hi : p.1 < coords.length := (mem_cellAtoms.1 hb.1).1
  have hj : p.2 < coords.length := by
    rcases hb.2 with h | h <;> exact (mem_cellAtoms.1 h).1
  rw [h1, h2]
  exact ⟨hi, hj, pairEvent_test hpe⟩

/-- Soundness of `sasa_get_contacts`. -/
theorem contactEvents_sound {coords : List (P3 K)} {radii : List K} {e : NbEvent K}
    (he : e ∈ contactEvents coords radii) :
    e.i < coords.length ∧ e.j < coords.length ∧
      contactTest (coords.getD e.i ⟨0, 0, 0⟩) (coords.getD e.j ⟨0, 0, 0⟩)
        (radii.getD e.i 0) (radii.getD e.j 0) = true := by
  rw [contactEvents] at he
  obtain ⟨p, hp, hpe⟩ := List.mem_filterMap.1 he
  obtain ⟨h1, h2⟩ := pairEvent_some hpe
  have hm := ordPairs_mem_of_mem hp
  rw [h1, h2]
  exact ⟨List.mem_range.1 hm.1, List.mem_range.1 hm.2, pairEvent_test hpe⟩

/-- Completeness of `sasa_get_contacts`: every qualifying pair is recorded. -/
theorem contactEvents_complete {coords : List (P3 K)} {radii : List K}
    {i j : ℕ} (hi : i < coords.length) (hj : j < coords.length) (hij : i ≠ j)
    (hct : contactTest (coords.getD i ⟨0, 0, 0⟩) (coords.getD j ⟨0, 0, 0⟩)
      (radii.getD i 0) (radii.getD j 0) = true) :
    ∃ e ∈ contactEvents coords radii, (e.i = i ∧ e.j = j) ∨ (e.i = j ∧ e.j = i) := by
  rw [contactEvents]
  rcases ordPairs_of_mem (List.nodup_range _) (List.mem_range.2 hi) (List.mem_range.2 hj) hij
    with hp | hp
  · exact ⟨_, List.mem_filterMap.2 ⟨(i, j), hp, pairEvent_of_test hct⟩, Or.inl ⟨rfl, rfl⟩⟩
  · rw [contactTest_comm] at hct
    exact ⟨_, List.mem_filterMap.2 ⟨(j, i), hp, pairEvent_of_test hct⟩, Or.inr ⟨rfl, rfl⟩⟩

/-- Completeness of the cell-list search: with positive radii, every pair
    passing the contact test lands in (at most) adjacent cells, the forward
    enumeration visits that cell pair in at least one order, and the pair is
    recorded. -/
theorem nbEvents_complete {coords : List (P3 K)} {radii : List K}
    (hlen : radii.length = coords.length) (hr : ∀ r ∈ radii, 0 < r)
    {i j : ℕ} (hi : i < coords.length) (hj : j < coords.length) (hij : i ≠ j)
    (hct : contactTest (coords.getD i ⟨0, 0, 0⟩) (coords.getD j ⟨0, 0, 0⟩)
      (radii.getD i 0) (radii.getD j 0) = true) :
    ∃ e ∈ nbEvents coords radii, (e.i = i ∧ e.j = j) ∨ (e.i = j ∧ e.j = i) := by
  have hri : 0 < radii.getD i 0 := hr _ (list_getD_mem 0 (hlen ▸ hi))
  have hrj : 0 < radii.getD j 0 := hr _ (list_getD_mem 0 (hlen ▸ hj))
  have hmi : radii.getD i 0 ≤ max_array radii := le_max_array (list_getD_mem 0 (hlen ▸ hi))
  have hmj : radii.getD j 0 ≤ max_array radii := le_max_array (list_getD_mem 0 (hlen ▸ hj))
  have hd : 0 < 2 * max_array radii := by linarith
  have hpa : coords.getD i ⟨0, 0, 0⟩ ∈ coords := list_getD_mem _ hi
  have hpb : coords.getD j ⟨0, 0, 0⟩ ∈ coords := list_getD_mem _ hj
  have hlt := contactTest_iff.1 hct
  have hcut : (radii.getD i 0 + radii.getD j 0) * (radii.getD i 0 + radii.getD j 0) ≤
      (2 * max_array radii) * (2 * max_array radii) := by nlinarith
  have hsq1 := mul_self_nonneg ((coords.getD j ⟨0, 0, 0⟩).x - (coords.getD i ⟨0, 0, 0⟩).x)
  have hsq2 := mul_self_nonneg ((coords.getD j ⟨0, 0, 0⟩).y - (coords.getD i ⟨0, 0, 0⟩).y)
  have hsq3 := mul_self_nonneg ((coords.getD j ⟨0, 0, 0⟩).z - (coords.getD i ⟨0, 0, 0⟩).z)
  have hax : |(coords.getD j ⟨0, 0, 0⟩).x - (coords.getD i ⟨0, 0, 0⟩).x| <
      2 * max_array radii := abs_lt_of_mul_self_lt (by linarith) hd
  have hay : |(coords.getD j ⟨0, 0, 0⟩).y - (coords.getD i ⟨0, 0, 0⟩).y| <
      2 * max_array radii := abs_lt_of_mul_self_lt (by linarith) hd
  have haz : |(coords.getD j ⟨0, 0, 0⟩).z - (coords.getD i ⟨0, 0, 0⟩).z| <
      2 * max_array radii := abs_lt_of_mul_self_lt (by linarith) hd
  have hAx := triple_x_adj hd hpa hpb hax
  have hAy := triple_y_adj hd hpa hpb hay
  have hAz := triple_z_adj hd hpa hpb haz
  have hvi1 := (cellTriple_x_lt hd hpa).2
  have hvi2 := (cellTriple_y_lt hd hpa).2
  have hvi3 := (cellTriple_z_lt hd hpa).2
  have hvj1 := (cellTriple_x_lt hd hpb).2
  have hvj2 := (cellTriple_y_lt hd hpb).2
  have hvj3 := (cellTriple_z_lt hd hpb).2
  by_cases hcc : cellTriple (cellGridNew (2 * max_array radii) coords)
      (coords.getD i ⟨0, 0, 0⟩) =
    cellTriple (cellGridNew (2 * max_array radii) coords) (coords.getD j ⟨0, 0, 0⟩)
  · -- same cell: the cell is its own forward neighbor (zero displacement)
    have hfwd : cellTriple (cellGridNew (2 * max_array radii) coords)
          (coords.getD i ⟨0, 0, 0⟩) ∈
        fwdCells (cellGridNew (2 * max_array radii) coords).nx
          (cellGridNew (2 * max_array radii) coords).ny
          (cellGridNew (2 * max_array radii) coords).nz
          (cellTriple (cellGridNew (2 * max_array radii) coords)
            (coords.getD i ⟨0, 0, 0⟩)) :=
      mem_fwdCells hvi1 hvi2 hvi3 (by omega) (by omega) (by omega) (by omega)
        (by omega) (by omega) (by omega)
    have hiA : i ∈ cellAtoms (cellGridNew (2 * max_array radii) coords) coords
        (cellTriple (cellGridNew (2 * max_array radii) coords)
          (coords.getD i ⟨0, 0, 0⟩)) := mem_cellAtoms.2 ⟨hi, rfl⟩
    have hjA : j ∈ cellAtoms (cellGridNew (2 * max_array radii) coords) coords
        (cellTriple (cellGridNew (2 * max_array radii) coords)
          (coords.getD i ⟨0, 0, 0⟩)) := mem_cellAtoms.2 ⟨hj, hcc.symm⟩
    rcases ordPairs_of_mem (cellAtoms_nodup _ _ _) hiA hjA hij with hp | hp
    · refine ⟨_, mem_nbEvents_of hvi1 hvi2 hvi3 hfwd ?_ (pairEvent_of_test (p := (i, j)) hct),
        Or.inl ⟨rfl, rfl⟩⟩
      rw [cellPairList, if_pos rfl]
      exact hp
    · rw [contactTest_comm] at hct
      refine ⟨_, mem_nbEvents_of hvi1 hvi2 hvi3 hfwd ?_ (pairEvent_of_test (p := (j, i)) hct),
        Or.inr ⟨rfl, rfl⟩⟩
      rw [cellPairList, if_pos rfl]
      exact hp
  · -- distinct cells: one of the two is the other's forward neighbor
    have hiA : i ∈ cellAtoms (cellGridNew (2 * max_array radii) coords) coords
        (cellTriple (cellGridNew (2 * max_array radii) coords)
          (coords.getD i ⟨0, 0, 0⟩)) := mem_cellAtoms.2 ⟨hi, rfl⟩
    have hjB : j ∈ cellAtoms (cellGridNew (2 * max_array radii) coords) coords
        (cellTriple (cellGridNew (2 * max_array radii) coords)
          (coords.getD j ⟨0, 0, 0⟩)) := mem_cellAtoms.2 ⟨hj, rfl⟩
    by_cases hs : 0 ≤
        ((cellTriple (cellGridNew (2 * max_array radii) coords)
            (coords.getD j ⟨0, 0, 0⟩)).1 : ℤ) -
          ((cellTriple (cellGridNew (2 * max_array radii) coords)
            (coords.getD i ⟨0, 0, 0⟩)).1 : ℤ) +
        (((cellTriple (cellGridNew (2 * max_array radii) coords)
            (coords.getD j ⟨0, 0, 0⟩)).2.1 : ℤ) -
          ((cellTriple (cellGridNew (2 * max_array radii) coords)
            (coords.getD i ⟨0, 0, 0⟩)).2.1 : ℤ)) +
        (((cellTriple (cellGridNew (2 * max_array radii) coords)
            (coords.getD j ⟨0, 0, 0⟩)).2.2 : ℤ) -
          ((cellTriple (cellGridNew (2 * max_array radii) coords)
            (coords.getD i ⟨0, 0, 0⟩)).2.2 : ℤ))
    · have hfwd := mem_fwdCells hvj1 hvj2 hvj3 hAx.1 hAx.2 hAy.1 hAy.2 hAz.1 hAz.2 hs
      refine ⟨_, mem_nbEvents_of hvi1 hvi2 hvi3 hfwd ?_ (pairEvent_of_test (p := (i, j)) hct),
        Or.inl ⟨rfl, rfl⟩⟩
      rw [cellPairList, if_neg hcc]
      exact List.mem_flatMap.2 ⟨i, hiA, List.mem_map.2 ⟨j, hjB, rfl⟩⟩
    · have hfwd := mem_fwdCells hvi1 hvi2 hvi3 hAx.2 hAx.1 hAy.2 hAy.1 hAz.2 hAz.1
        (by omega)
      rw [contactTest_comm] at hct
      refine ⟨_, mem_nbEvents_of hvj1 hvj2 hvj3 hfwd ?_ (pairEvent_of_test (p := (j, i)) hct),
        Or.inr ⟨rfl, rfl⟩⟩
      rw [cellPairList, if_neg (fun hc => hcc hc.symm)]
      exact List.mem_flatMap.2 ⟨j, hjB, List.mem_map.2 ⟨i, hiA, rfl⟩⟩

end TraceCorrect

/-! ## Claim C1: contact correctness of both neighbor constructions -/

/-- C1: for a point cloud with at least one atom and strictly positive
contact radii, both the cell-list construction of `freesasa_nb_new` and the
all-pairs construction of `sasa_get_contacts` contain `j` in `nb[i]` (for
`i ≠ j`) exactly when the 3-D center distance is strictly below `R_i + R_j`. -/
theorem neighbor_contact_correct (coords : List (P3 ℚ)) (radii : List ℚ)
    (hlen : radii.length = coords.length) (hn : 1 ≤ coords.length)
    (hr : ∀ r ∈ radii, 0 < r) (i j : ℕ) (hi : i < coords.length) (hj : j < coords.length)
    (hij : i ≠ j) :
    (j ∈ freesasaNb coords radii i ↔
      Real.sqrt ((((coords.getD j ⟨0, 0, 0⟩).x - (coords.getD i ⟨0, 0, 0⟩).x : ℚ) : ℝ) ^ 2 +
          (((coords.getD j ⟨0, 0, 0⟩).y - (coords.getD i ⟨0, 0, 0⟩).y : ℚ) : ℝ) ^ 2 +
          (((coords.getD j ⟨0, 0, 0⟩).z - (coords.getD i ⟨0, 0, 0⟩).z : ℚ) : ℝ) ^ 2) <
        ((radii.getD i 0 : ℚ) : ℝ) + ((radii.getD j 0 : ℚ) : ℝ)) ∧
    (j ∈ sasaContacts coords radii i ↔
      Real.sqrt ((((coords.getD j ⟨0, 0, 0⟩).x - (coords.getD i ⟨0, 0, 0⟩).x : ℚ) : ℝ) ^ 2 +
          (((coords.getD j ⟨0, 0, 0⟩).y - (coords.getD i ⟨0, 0, 0⟩).y : ℚ) : ℝ) ^ 2 +
          (((coords.getD j ⟨0, 0, 0⟩).z - (coords.getD i ⟨0, 0, 0⟩).z : ℚ) : ℝ) ^ 2) <
        ((radii.getD i 0 : ℚ) : ℝ) + ((radii.getD j 0 : ℚ) : ℝ)) := by
  have hri : 0 < radii.getD i 0 := hr _ (list_getD_mem 0 (hlen ▸ hi))
  have hrj : 0 < radii.getD j 0 := hr _ (list_getD_mem 0 (hlen ▸ hj))
  have hcutpos : (0 : ℝ) < ((radii.getD i 0 : ℚ) : ℝ) + ((radii.getD j 0 : ℚ) : ℝ) := by
    have : ((0 : ℚ) : ℝ) < ((radii.getD i 0 + radii.getD j 0 : ℚ) : ℝ) := by
      exact_mod_cast (by linarith : (0 : ℚ) < radii.getD i 0 + radii.getD j 0)
    push_cast at this ⊢
    linarith
  have hform :
      (contactTest (coords.getD i ⟨0, 0, 0⟩) (coords.getD j ⟨0, 0, 0⟩)
          (radii.getD i 0) (radii.getD j 0) = true) ↔
        Real.sqrt ((((coords.getD j ⟨0, 0, 0⟩).x - (coords.getD i ⟨0, 0, 0⟩).x : ℚ) : ℝ) ^ 2 +
            (((coords.getD j ⟨0, 0, 0⟩).y - (coords.getD i ⟨0, 0, 0⟩).y : ℚ) : ℝ) ^ 2 +
            (((coords.getD j ⟨0, 0, 0⟩).z - (coords.getD i ⟨0, 0, 0⟩).z : ℚ) : ℝ) ^ 2) <
          ((radii.getD i 0 : ℚ) : ℝ) + ((radii.getD j 0 : ℚ) : ℝ) := by
    rw [contactTest_iff, Real.sqrt_lt' hcutpos]
    constructor
    · intro h
      rify at h
      push_cast
      nlinarith [h]
    · intro h
      rify
      push_cast at h ⊢
      nlinarith [h]
  constructor
  · rw [freesasaNb, mem_nbList (nbEvents_wf coords radii), ← hform]
    constructor
    · rintro ⟨e, he, ⟨hei, hej⟩ | ⟨hei, hej⟩⟩
      · have hs := (nbEvents_sound he).2.2
        rw [hei, hej] at hs
        exact hs
      · have hs := (nbEvents_sound he).2.2
        rw [hei, hej, contactTest_comm] at hs
        exact hs
    · intro hct
      exact nbEvents_complete hlen hr hi hj hij hct
  · rw [sasaContacts, mem_nbList (contactEvents_wf coords radii), ← hform]
    constructor
    · rintro ⟨e, he, ⟨hei, hej⟩ | ⟨hei, hej⟩⟩
      · have hs := (contactEvents_sound he).2.2
        rw [hei, hej] at hs
        exact hs
      · have hs := (contactEvents_sound he).2.2
        rw [hei, hej, contactTest_comm] at hs
        exact hs
    · intro hct
      exact contactEvents_complete hi hj hij hct

/-- Witness for C1 at the concrete two-atom input (atoms at distance √2 with
radii 1): both constructions list atom 1 as a neighbor of atom 0 iff
√2 < 2, which holds. -/
theorem neighbor_contact_correct_witness :
    ((1 ∈ freesasaNb cexCoords cexRadii 0 ↔
      Real.sqrt ((((cexCoords.getD 1 ⟨0, 0, 0⟩).x - (cexCoords.getD 0 ⟨0, 0, 0⟩).x : ℚ) : ℝ) ^ 2 +
          (((cexCoords.getD 1 ⟨0, 0, 0⟩).y - (cexCoords.getD 0 ⟨0, 0, 0⟩).y : ℚ) : ℝ) ^ 2 +
          (((cexCoords.getD 1 ⟨0, 0, 0⟩).z - (cexCoords.getD 0 ⟨0, 0, 0⟩).z : ℚ) : ℝ) ^ 2) <
        ((cexRadii.getD 0 0 : ℚ) : ℝ) + ((cexRadii.getD 1 0 : ℚ) : ℝ)) ∧
    (1 ∈ sasaContacts cexCoords cexRadii 0 ↔
      Real.sqrt ((((cexCoords.getD 1 ⟨0, 0, 0⟩).x - (cexCoords.getD 0 ⟨0, 0, 0⟩).x : ℚ) : ℝ) ^ 2 +
          (((cexCoords.getD 1 ⟨0, 0, 0⟩).y - (cexCoords.getD 0 ⟨0, 0, 0⟩).y : ℚ) : ℝ) ^ 2 +
          (((cexCoords.getD 1 ⟨0, 0, 0⟩).z - (cexCoords.getD 0 ⟨0, 0, 0⟩).z : ℚ) : ℝ) ^ 2) <
        ((cexRadii.getD 0 0 : ℚ) : ℝ) + ((cexRadii.getD 1 0 : ℚ) : ℝ))) :=
  neighbor_contact_correct cexCoords cexRadii rfl (by norm_num [cexCoords])
    (by norm_num [cexRadii]) 0 1 (by norm_num [cexCoords]) (by norm_num [cexCoords])
    (by norm_num)

/-- Witness for C4 at the concrete two-atom input: position 0 of `nb[0]`
holds atom 1, and the theorem produces the reciprocal data. -/
theorem nb_add_pair_symmetric_witness :
    ∃ (k' : ℕ) (dx dy : ℚ),
      (nbXd (nbEvents cexCoords cexRadii) 0)[0]? = some dx ∧
      (nbYd (nbEvents cexCoords cexRadii) 0)[0]? = some dy ∧
      (freesasaNb cexCoords cexRadii 1)[k']? = some 0 ∧
      (nbXd (nbEvents cexCoords cexRadii) 1)[k']? = some (-dx) ∧
      (nbYd (nbEvents cexCoords cexRadii) 1)[k']? = some (-dy) ∧
      (nbXyd (nbEvents cexCoords cexRadii) 0)[0]? =
        some (Real.sqrt ((dx : ℝ) ^ 2 + (dy : ℝ) ^ 2)) ∧
      (nbXyd (nbEvents cexCoords cexRadii) 1)[k']? =
        some (Real.sqrt ((dx : ℝ) ^ 2 + (dy : ℝ) ^ 2)) :=
  (nb_add_pair_symmetric cexCoords cexRadii).2.2 0 0 1 (by rw [cex_nb0]; rfl)

/-! ## Claim C3: the visited slice centers -/

/-- The slice loop visits exactly the arithmetic progression
`zmin, zmin+δ, …` while the running center stays below `zmax`. -/
theorem mem_sliceCenters (delta : ℝ) (hd : 0 < delta) (zmax zmin z : ℝ) :
    z ∈ sliceCenters delta hd zmin zmax ↔
      ∃ k : ℕ, z = zmin + k * delta ∧ z < zmax := by
  rw [sliceCenters]
  split
  · rename_i hlt
    rw [List.mem_cons, mem_sliceCenters delta hd zmax (zmin + delta) z]
    constructor
    · rintro (rfl | ⟨k, hk, hz⟩)
      · exact ⟨0, by norm_num, hlt⟩
      · refine ⟨k + 1, ?_, hz⟩
        rw [hk]
        push_cast
        ring
    · rintro ⟨k, hk, hz⟩
      cases k with
      | zero =>
        left
        rw [hk]
        norm_num
      | succ k' =>
        right
        refine ⟨k', ?_, hz⟩
        rw [hk]
        push_cast
        ring
  · rename_i hge
    push_neg at hge
    simp only [List.not_mem_nil, false_iff, not_exists, not_and]
    intro k hk
    have h0 : (0 : ℝ) ≤ (k : ℝ) * delta := by positivity
    rw [hk]
    linarith
termination_by (Int.ceil ((zmax - zmin) / delta)).toNat
decreasing_by
  rename_i hlt
  have h1 : (0 : ℤ) < Int.ceil ((zmax - zmin) / delta) := by
    apply Int.lt_ceil.2
    push_cast
    exact div_pos (by linarith) hd
  have h2 : Int.ceil ((zmax - (zmin + delta)) / delta) =
      Int.ceil ((zmax - zmin) / delta) - 1 := by
    rw [show (zmax - (zmin + delta)) / delta = (zmax - zmin) / delta - 1 by
      field_simp
      ring]
    exact Int.ceil_sub_one _
  rw [h2]
  omega

/-- C3 (amended): `sasalib_lee_richards` visits exactly the slice centers
`Z_min + k·δ` (k ∈ ℕ) with `z < Z_max`, where `Z_min` is the code's value
`(min_i z_i) − (max_i R_i) + δ/2` (sentinel-seeded folds) and
`Z_max = (max_i z_i) + (max_i R_i)` — not the per-atom formula
`min_i(z_i − R_i) + δ/2` claimed by the spec. -/
theorem lr_slice_centers_exact (coords : List (P3 ℝ)) (radii : List ℝ) (delta : ℝ)
    (hd : 0 < delta) (z : ℝ) :
    z ∈ sliceCenters delta hd (lrMinZ coords radii delta) (lrMaxZ coords radii) ↔
      ∃ k : ℕ, z = lrMinZ coords radii delta + k * delta ∧ z < lrMaxZ coords radii :=
  mem_sliceCenters delta hd _ _ z

/-- Witness for the amended C3 at the two-atom input. -/
theorem lr_slice_centers_exact_witness :
    (-(3 / 2 : ℝ)) ∈
        sliceCenters 1 one_pos (lrMinZ c3Coords c3Radii 1) (lrMaxZ c3Coords c3Radii) ↔
      ∃ k : ℕ, (-(3 / 2 : ℝ)) = lrMinZ c3Coords c3Radii 1 + k * 1 ∧
        (-(3 / 2 : ℝ)) < lrMaxZ c3Coords c3Radii :=
  lr_slice_centers_exact c3Coords c3Radii 1 one_pos (-(3 / 2))

/-- C3 (counterexample): for atoms `(z, R) = (0, 1), (10, 2)` and `δ = 1`,
the code computes `z_min = (min_i z_i) − (max_i R_i) + δ/2 = −3/2` and visits
the slice center `−3/2`, while the claimed start `min_i(z_i − R_i) + δ/2`
equals `−1/2`: the visited center `−3/2` is not of the claimed form
`−1/2 + k·δ` for any `k ∈ ℕ`. -/
theorem slice_range_start_mismatch :
    (-(3 / 2 : ℝ)) ∈
      sliceCenters 1 one_pos (lrMinZ c3Coords c3Radii 1) (lrMaxZ c3Coords c3Radii) ∧
    specMinZ c3Coords c3Radii 1 = -(1 / 2 : ℝ) ∧
    ∀ k : ℕ, (-(3 / 2 : ℝ)) ≠ specMinZ c3Coords c3Radii 1 + k * 1 := by
  have hmin : lrMinZ c3Coords c3Radii 1 = -(3 / 2 : ℝ) := by
    norm_num [lrMinZ, c3Coords, c3Radii, max_array]
  have hmax : lrMaxZ c3Coords c3Radii = 12 := by
    norm_num [lrMaxZ, c3Coords, c3Radii, max_array]
  have hspec : specMinZ c3Coords c3Radii 1 = -(1 / 2 : ℝ) := by
    norm_num [specMinZ, c3Coords, c3Radii]
  refine ⟨?_, hspec, ?_⟩
  · rw [mem_sliceCenters]
    refine ⟨0, ?_, ?_⟩
    · rw [hmin]
      norm_num
    · rw [hmax]
      norm_num
  · intro k
    rw [hspec]
    have h0 : (0 : ℝ) ≤ (k : ℝ) := Nat.cast_nonneg k
    intro hc
    have : (k : ℝ) * 1 = (k : ℝ) := by ring
    rw [this] at hc
    linarith

/-! ## Claim C10: the in-slice radius is strictly positive -/

/-- C10: every atom admitted to a slice by the strict test `|z_i − z| < R_i`
has a strictly positive in-slice radius `r = sqrt(R_i² − d²)`, so the
division `R_i / r` in the DR weight is never a division by zero. -/
theorem slice_radius_pos (coords : List (P3 ℝ)) (radii : List ℝ) (delta z : ℝ)
    (t : SliceAtom) (ht : t ∈ sliceAtoms coords radii delta z) : 0 < t.r ∧ t.r ≠ 0 := by
  rw [sliceAtoms] at ht
  obtain ⟨i, _, hsome⟩ := List.mem_filterMap.1 ht
  by_cases hd : |(coords.getD i ⟨0, 0, 0⟩).z - z| < radii.getD i 0
  · rw [if_pos hd] at hsome
    have habs : (0 : ℝ) ≤ |(coords.getD i ⟨0, 0, 0⟩).z - z| := abs_nonneg _
    have hr : 0 < t.r := by
      cases hsome
      apply Real.sqrt_pos.2
      nlinarith
    exact ⟨hr, ne_of_gt hr⟩
  · rw [if_neg hd] at hsome
    cases hsome

/-- Witness for C10 at a one-atom slice through the sphere center. -/
theorem slice_radius_pos_witness :
    0 < ((sliceAtoms [(⟨0, 0, 0⟩ : P3 ℝ)] [1] 1 0).getD 0 ⟨0, 0, 0, 0, 0⟩).r :=
  (slice_radius_pos [(⟨0, 0, 0⟩ : P3 ℝ)] [1] 1 0 _
    (list_getD_mem _ (by
      rw [sliceAtoms, show List.range (List.length [(⟨0, 0, 0⟩ : P3 ℝ)]) = [0] from rfl,
        List.filterMap_cons]
      norm_num))).1

/-! ## Claim C8: positivity of inserted half-widths -/

/-- C8 (counterexample): at exact internal tangency — in-slice radii
`ri = 2`, `rj = 1` at center distance `d = 1` — all three conditions of the
proper-intersection branch hold (`d < ri + rj`, `¬(d + ri < rj)`,
`¬(d + rj < ri)`), yet the inserted half-width is
`acos((4 + 1 − 1)/4) = acos 1 = 0`, not strictly positive, so the assertion
`a[i] > 0` in `sasa_sum_angles` fails there. -/
theorem alpha_zero_at_tangency :
    ((1 : ℝ) < 2 + 1 ∧ ¬((1 : ℝ) + 2 < 1) ∧ ¬((1 : ℝ) + 1 < 2)) ∧
      alphaFor 2 1 1 = 0 := by
  refine ⟨⟨by norm_num, by norm_num, by norm_num⟩, ?_⟩
  rw [alphaFor]
  rw [show ((2 : ℝ) * 2 + 1 * 1 - 1 * 1) / (2 * 2 * 1) = 1 by norm_num]
  exact Real.arccos_one

/-- C8 (amended): with positive in-slice radii, every half-width inserted by
the proper-intersection branch is strictly positive provided the internal
tangency is strict (`ri < d + rj` rather than `ri ≤ d + rj`); the branch
conditions then force `d > 0` and the `acos` argument below 1. -/
theorem alpha_pos_of_proper (ri rj d : ℝ) (hri : 0 < ri) (hrj : 0 < rj)
    (h1 : d < ri + rj) (h2 : ¬(d + ri < rj)) (h3 : ri < d + rj) :
    0 < alphaFor ri rj d := by
  push_neg at h2
  have hd : 0 < d := by linarith
  rw [alphaFor]
  apply Real.arccos_pos.2
  rw [div_lt_one (by positivity)]
  nlinarith [mul_pos (show (0 : ℝ) < rj - ri + d by linarith)
    (show (0 : ℝ) < rj + ri - d by linarith)]

/-- Witness for the amended C8: two unit circles at center distance 1 give
half-width `acos(1/2) > 0`. -/
theorem alpha_pos_of_proper_witness : 0 < alphaFor 1 1 1 :=
  alpha_pos_of_proper 1 1 1 (by norm_num) (by norm_num) (by norm_num) (by norm_num)
    (by norm_num)

/-! ## Claim C6: the per-slice accumulation formula -/

theorem foldl_update_apply (pairs : List (SliceAtom × ℝ)) (f : ℕ → ℝ) (m : ℕ) :
    (pairs.foldl (fun g t => Function.update g t.1.idx (g t.1.idx + t.2 * t.1.r * t.1.dr)) f) m
      = f m +
        ((pairs.filter (fun t => t.1.idx = m)).map (fun t => t.2 * t.1.r * t.1.dr)).sum := by
  induction pairs generalizing f with
  | nil => simp
  | cons t rest ih =>
    rw [List.foldl_cons, ih, List.filter_cons]
    by_cases hc : t.1.idx = m
    · rw [if_pos (by simpa using hc), List.map_cons, List.sum_cons]
      rw [← hc, Function.update_same]
      ring
    · rw [if_neg (by simpa using hc), Function.update_noteq (fun h => hc h.symm)]

theorem arcsLoop_length (sa : List SliceAtom) (nbs : ℕ → List ℕ) :
    ∀ (is : List ℕ) (bur : List Bool), (arcsLoop sa nbs is bur).length = is.length
  | [], _ => rfl
  | i :: is, bur => by
    rw [arcsLoop]
    split
    · simp [arcsLoop_length sa nbs is]
    · simp [apply_ite List.length, arcsLoop_length sa nbs is]

theorem exposedArcs_length (coords : List (P3 ℝ)) (radii : List ℝ) (delta z : ℝ)
    (nb : ℕ → List ℕ) :
    (exposedArcs coords radii delta z nb).length =
      (sliceAtoms coords radii delta z).length := by
  rw [exposedArcs, arcsLoop_length, List.length_range]

theorem filterMap_guard_idx_sublist (F : ℕ → Option SliceAtom)
    (hF : ∀ i t, F i = some t → t.idx = i) :
    ∀ l : List ℕ, ((l.filterMap F).map (fun t => t.idx)).Sublist l
  | [] => by simp
  | i :: rest => by
    rw [List.filterMap_cons]
    cases hFi : F i with
    | none => exact List.Sublist.cons i (filterMap_guard_idx_sublist F hF rest)
    | some t =>
      rw [List.map_cons, hF i t hFi]
      exact List.Sublist.cons₂ i (filterMap_guard_idx_sublist F hF rest)

theorem sliceAtoms_idx_nodup (coords : List (P3 ℝ)) (radii : List ℝ) (delta z : ℝ) :
    ((sliceAtoms coords radii delta z).map (fun t => t.idx)).Nodup := by
  apply (List.nodup_range coords.length).sublist
  rw [sliceAtoms]
  apply filterMap_guard_idx_sublist
  intro i t h
  split at h
  · cases h
    rfl
  · cases h

theorem mem_sliceAtoms {coords : List (P3 ℝ)} {radii : List ℝ} {delta z : ℝ}
    {t : SliceAtom} :
    t ∈ sliceAtoms coords radii delta z ↔
      ∃ i, i < coords.length ∧ |(coords.getD i ⟨0, 0, 0⟩).z - z| < radii.getD i 0 ∧
        t = mkSliceAtom coords radii delta z i := by
  rw [sliceAtoms]
  constructor
  · intro h
    obtain ⟨i, hi, hsome⟩ := List.mem_filterMap.1 h
    split at hsome
    · rename_i hcond
      cases hsome
      exact ⟨i, List.mem_range.1 hi, hcond, rfl⟩
    · cases hsome
  · rintro ⟨i, hi, hcond, rfl⟩
    exact List.mem_filterMap.2 ⟨i, List.mem_range.2 hi, by rw [if_pos hcond]⟩

theorem zip_filter_singleton :
    ∀ (sa : List SliceAtom) (arcs : List ℝ) (m k : ℕ) (hk : k < sa.length)
      (hka : k < arcs.length),
      ((sa.map (fun t => t.idx)).Nodup) → (sa.get ⟨k, hk⟩).idx = m →
      (sa.zip arcs).filter (fun t => t.1.idx = m) =
        [(sa.get ⟨k, hk⟩, arcs.get ⟨k, hka⟩)]
  | t :: sa', a :: arcs', m, 0, hk, hka, hnd, hidx => by
    rw [List.zip_cons_cons, List.filter_cons]
    simp only [List.get] at hidx ⊢
    rw [if_pos (by simpa using hidx)]
    have hrest : (sa'.zip arcs').filter (fun t => t.1.idx = m) = [] := by
      rw [List.filter_eq_nil_iff]
      intro p hp hpm
      have h1 : p.1 ∈ sa' := (List.of_mem_zip hp).1
      have h2 : p.1.idx ∈ sa'.map (fun t => t.idx) := List.mem_map.2 ⟨p.1, h1, rfl⟩
      rw [List.map_cons, List.nodup_cons] at hnd
      apply hnd.1
      rw [hidx, ← (by simpa using hpm : p.1.idx = m)]
      exact h2
    rw [hrest]
  | t :: sa', a :: arcs', m, k + 1, hk, hka, hnd, hidx => by
    rw [List.zip_cons_cons, List.filter_cons]
    simp only [List.get] at hidx
    have hne : ¬(t.idx = m) := by
      rw [List.map_cons, List.nodup_cons] at hnd
      intro hc
      apply hnd.1
      rw [hc, ← hidx]
      exact List.mem_map.2 ⟨_, List.get_mem sa' k
        (by simp only [List.length_cons] at hk; omega), rfl⟩
    rw [if_neg (by simpa using hne)]
    have hnd' : (sa'.map (fun t => t.idx)).Nodup := by
      rw [List.map_cons, List.nodup_cons] at hnd
      exact hnd.2
    rw [zip_filter_singleton sa' arcs' m k (by simpa using hk) (by simpa using hka)
      hnd' hidx]
    rfl

/-- C6: for each slice center `z` the amount added to `sasa[m]` is exactly
`θ·r·DR` with `r = sqrt(R_m² − d²)` and `DR = (R_m/r)·(δ/2 + min(δ/2, R_m − d))`
when `|z_m − z| < R_m`, where `θ` is the exposed angular measure computed for
`m`'s slice-local circle; atoms with `d ≥ R_m` (or out of range) contribute
nothing to that slice. -/
theorem slice_area_update (coords : List (P3 ℝ)) (radii : List ℝ) (delta : ℝ)
    (nb : ℕ → List ℕ) (z : ℝ) (sasa : ℕ → ℝ) (m : ℕ) :
    (|(coords.getD m ⟨0, 0, 0⟩).z - z| < radii.getD m 0 → m < coords.length →
      addSliceArea coords radii delta nb z sasa m =
        sasa m +
          (exposedArcs coords radii delta z nb).getD
              ((sliceAtoms coords radii delta z).findIdx (fun t => t.idx = m)) 0 *
            Real.sqrt (radii.getD m 0 * radii.getD m 0 -
              |(coords.getD m ⟨0, 0, 0⟩).z - z| * |(coords.getD m ⟨0, 0, 0⟩).z - z|) *
            (radii.getD m 0 /
                Real.sqrt (radii.getD m 0 * radii.getD m 0 -
                  |(coords.getD m ⟨0, 0, 0⟩).z - z| * |(coords.getD m ⟨0, 0, 0⟩).z - z|) *
              (delta / 2 +
                min (delta / 2) (radii.getD m 0 - |(coords.getD m ⟨0, 0, 0⟩).z - z|)))) ∧
    (¬(|(coords.getD m ⟨0, 0, 0⟩).z - z| < radii.getD m 0 ∧ m < coords.length) →
      addSliceArea coords radii delta nb z sasa m = sasa m) := by
  constructor
  · intro hcond hm
    have hmem : mkSliceAtom coords radii delta z m ∈ sliceAtoms coords radii delta z :=
      mem_sliceAtoms.2 ⟨m, hm, hcond, rfl⟩
    have hex : ∃ x ∈ sliceAtoms coords radii delta z, decide (x.idx = m) = true :=
      ⟨_, hmem, by simp [mkSliceAtom]⟩
    have hkf : (sliceAtoms coords radii delta z).findIdx (fun t => t.idx = m) <
        (sliceAtoms coords radii delta z).length :=
      List.findIdx_lt_length_of_exists hex
    have hkfa : (sliceAtoms coords radii delta z).findIdx (fun t => t.idx = m) <
        (exposedArcs coords radii delta z nb).length := by
      rw [exposedArcs_length]
      exact hkf
    have hpk : ((sliceAtoms coords radii delta z).get
        ⟨(sliceAtoms coords radii delta z).findIdx (fun t => t.idx = m), hkf⟩).idx = m := by
      have := @List.findIdx_getElem _ (fun t : SliceAtom => decide (t.idx = m))
        (sliceAtoms coords radii delta z) hkf
      simpa using this
    -- the slice atom at the found position is exactly the record built for m
    have hpos : (sliceAtoms coords radii delta z).get
        ⟨(sliceAtoms coords radii delta z).findIdx (fun t => t.idx = m), hkf⟩ =
          mkSliceAtom coords radii delta z m := by
      obtain ⟨⟨k0, hk0⟩, hget⟩ := List.mem_iff_get.1 hmem
      have hk0m : k0 < ((sliceAtoms coords radii delta z).map (fun t => t.idx)).length := by
        simpa using hk0
      have hkfm : (sliceAtoms coords radii delta z).findIdx (fun t => t.idx = m) <
          ((sliceAtoms coords radii delta z).map (fun t => t.idx)).length := by
        simpa using hkf
      have he : ((sliceAtoms coords radii delta z).map (fun t => t.idx)).get ⟨k0, hk0m⟩ =
          ((sliceAtoms coords radii delta z).map (fun t => t.idx)).get
            ⟨(sliceAtoms coords radii delta z).findIdx (fun t => t.idx = m), hkfm⟩ := by
        rw [List.get_map, List.get_map]
        have h1 : ((sliceAtoms coords radii delta z).get ⟨k0, hk0⟩).idx = m := by
          rw [hget]
          rfl
        rw [h1, hpk]
      have hfin := (List.Nodup.get_inj_iff (sliceAtoms_idx_nodup coords radii delta z)).1 he
      have hkk : k0 = (sliceAtoms coords radii delta z).findIdx (fun t => t.idx = m) :=
        congrArg Fin.val hfin
      have hfe : (⟨k0, hk0⟩ : Fin (sliceAtoms coords radii delta z).length) =
          ⟨(sliceAtoms coords radii delta z).findIdx (fun t => t.idx = m), hkf⟩ :=
        Fin.ext hkk
      rw [← hfe]
      exact hget
    simp only [addSliceArea]
    rw [foldl_update_apply,
      zip_filter_singleton (sliceAtoms coords radii delta z)
        (exposedArcs coords radii delta z nb) m
        ((sliceAtoms coords radii delta z).findIdx (fun t => t.idx = m)) hkf hkfa
        (sliceAtoms_idx_nodup coords radii delta z) hpk]
    simp only [List.map_cons, List.map_nil, List.sum_cons, List.sum_nil, add_zero]
    rw [hpos]
    have hgetD : (exposedArcs coords radii delta z nb).getD
        ((sliceAtoms coords radii delta z).findIdx (fun t => t.idx = m)) 0 =
          (exposedArcs coords radii delta z nb).get
            ⟨(sliceAtoms coords radii delta z).findIdx (fun t => t.idx = m), hkfa⟩ := by
      rw [List.getD_eq_getElem _ 0 hkfa]
      rfl
    rw [hgetD]
    simp only [mkSliceAtom]
    rw [show (if delta / 2 < radii.getD m 0 - |(coords.getD m ⟨0, 0, 0⟩).z - z| then delta / 2
        else radii.getD m 0 - |(coords.getD m ⟨0, 0, 0⟩).z - z|) =
        min (delta / 2) (radii.getD m 0 - |(coords.getD m ⟨0, 0, 0⟩).z - z|) from by
      split_ifs with h
      · exact (min_eq_left h.le).symm
      · exact (min_eq_right (not_lt.1 h)).symm]
  · intro hncond
    simp only [addSliceArea]
    rw [foldl_update_apply]
    have hfe : ((sliceAtoms coords radii delta z).zip
        (exposedArcs coords radii delta z nb)).filter (fun t => t.1.idx = m) = [] := by
      rw [List.filter_eq_nil_iff]
      intro p hp hpm
      have h1 : p.1 ∈ sliceAtoms coords radii delta z := (List.of_mem_zip hp).1
      obtain ⟨i, hi, hcond, hpe⟩ := mem_sliceAtoms.1 h1
      have hidx : p.1.idx = i := by
        rw [hpe]
        rfl
      have him : i = m := by
        rw [← hidx]
        simpa using hpm
      exact hncond ⟨him ▸ hcond, him ▸ hi⟩
    rw [hfe]
    simp

/-- Witness for C6: a single unit atom contributes nothing to a far slice
(z = 10) and the full `θ·r·DR` formula to the central slice (z = 0). -/
theorem slice_area_update_witness :
    (addSliceArea [(⟨0, 0, 0⟩ : P3 ℝ)] [1] 1 (fun _ => []) 10 (fun _ => 0) 0 =
      (fun _ => (0 : ℝ)) 0) ∧
    (addSliceArea [(⟨0, 0, 0⟩ : P3 ℝ)] [1] 1 (fun _ => []) 0 (fun _ => 0) 0 =
      (fun _ => (0 : ℝ)) 0 +
        (exposedArcs [(⟨0, 0, 0⟩ : P3 ℝ)] [1] 1 0 (fun _ => [])).getD
            ((sliceAtoms [(⟨0, 0, 0⟩ : P3 ℝ)] [1] 1 0).findIdx (fun t => t.idx = 0)) 0 *
          Real.sqrt (([1] : List ℝ).getD 0 0 * ([1] : List ℝ).getD 0 0 -
            |(([(⟨0, 0, 0⟩ : P3 ℝ)]).getD 0 ⟨0, 0, 0⟩).z - 0| *
              |(([(⟨0, 0, 0⟩ : P3 ℝ)]).getD 0 ⟨0, 0, 0⟩).z - 0|) *
          (([1] : List ℝ).getD 0 0 /
              Real.sqrt (([1] : List ℝ).getD 0 0 * ([1] : List ℝ).getD 0 0 -
                |(([(⟨0, 0, 0⟩ : P3 ℝ)]).getD 0 ⟨0, 0, 0⟩).z - 0| *
                  |(([(⟨0, 0, 0⟩ : P3 ℝ)]).getD 0 ⟨0, 0, 0⟩).z - 0|) *
            (1 / 2 + min ((1 : ℝ) / 2)
              (([1] : List ℝ).getD 0 0 -
                |(([(⟨0, 0, 0⟩ : P3 ℝ)]).getD 0 ⟨0, 0, 0⟩).z - 0|)))) :=
  ⟨(slice_area_update [(⟨0, 0, 0⟩ : P3 ℝ)] [1] 1 (fun _ => []) 10 (fun _ => 0) 0).2
      (by norm_num),
   (slice_area_update [(⟨0, 0, 0⟩ : P3 ℝ)] [1] 1 (fun _ => []) 0 (fun _ => 0) 0).1
      (by norm_num) (by norm_num)⟩


/-! ## Termination and range of `sasa_sum_angles` -/

section SumAngles

/-- `normLoop` is the identity on `[−π, π]`. -/
theorem normLoop_eq_self {x : ℝ} (h1 : -Real.pi ≤ x) (h2 : x ≤ Real.pi) :
    normLoop x = x := by
  rw [normLoop]
  rw [dif_neg (not_lt.2 h2), dif_neg (not_lt.2 h1)]

/-- `normLoop` lands in `[−π, π]`. -/
theorem normLoop_bounds (x : ℝ) : -Real.pi ≤ normLoop x ∧ normLoop x ≤ Real.pi := by
  induction x using normLoop.induct with
  | case1 x h ih => rw [normLoop, dif_pos h]; exact ih
  | case2 x h1 h2 ih => rw [normLoop, dif_neg h1, dif_pos h2]; exact ih
  | case3 x h1 h2 =>
    rw [normLoop, dif_neg h1, dif_neg h2]
    exact ⟨le_of_not_lt h2, le_of_not_lt h1⟩

/-- `normLoop` only shifts by multiples of `2π`. -/
theorem normLoop_period (x : ℝ) : ∃ m : ℤ, normLoop x = x + 2 * Real.pi * m := by
  induction x using normLoop.induct with
  | case1 x h ih =>
    obtain ⟨m, hm⟩ := ih
    rw [normLoop, dif_pos h]
    exact ⟨m - 1, by rw [hm]; push_cast; ring⟩
  | case2 x h1 h2 ih =>
    obtain ⟨m, hm⟩ := ih
    rw [normLoop, dif_neg h1, dif_pos h2]
    exact ⟨m + 1, by rw [hm]; push_cast; ring⟩
  | case3 x h1 h2 =>
    rw [normLoop, dif_neg h1, dif_neg h2]
    exact ⟨0, by push_cast; ring⟩

/-- `normLoop x` is the smallest-magnitude representative of `x` mod `2π`. -/
theorem normLoop_le_abs_rep {x u : ℝ} (h : ∃ k : ℤ, u = x + 2 * Real.pi * k) :
    |normLoop x| ≤ |u| := by
  obtain ⟨k, rfl⟩ := h
  obtain ⟨m, hm⟩ := normLoop_period x
  have hb := normLoop_bounds x
  have habs : |normLoop x| ≤ Real.pi := abs_le.2 ⟨hb.1, hb.2⟩
  have hπ := Real.pi_pos
  rcases eq_or_ne k m with he | hne
  · rw [hm, he]
  · have hc : (1 : ℝ) ≤ |(k : ℝ) - m| := by
      have h1 : (1 : ℤ) ≤ |k - m| := Int.one_le_abs (sub_ne_zero.2 hne)
      calc (1 : ℝ) = ((1 : ℤ) : ℝ) := by norm_num
        _ ≤ ((|k - m| : ℤ) : ℝ) := by exact_mod_cast h1
        _ = |(k : ℝ) - m| := by push_cast; rfl
    have hur : x + 2 * Real.pi * k - normLoop x = 2 * Real.pi * ((k : ℝ) - m) := by
      rw [hm]; ring
    have h3 : |x + 2 * Real.pi * k - normLoop x| = 2 * Real.pi * |(k : ℝ) - m| := by
      rw [hur, abs_mul, abs_of_pos (by positivity : (0 : ℝ) < 2 * Real.pi)]
    have h4 : 2 * Real.pi * 1 ≤ 2 * Real.pi * |(k : ℝ) - m| :=
      mul_le_mul_of_nonneg_left hc (by positivity)
    have h6 : |x + 2 * Real.pi * k - normLoop x| ≤ |x + 2 * Real.pi * k| + |normLoop x| := by
      calc |x + 2 * Real.pi * k - normLoop x|
          = |x + 2 * Real.pi * k + -(normLoop x)| := by ring_nf
        _ ≤ |x + 2 * Real.pi * k| + |-(normLoop x)| := abs_add _ _
        _ = |x + 2 * Real.pi * k| + |normLoop x| := by rw [abs_neg]
    linarith

/-- `normLoop` annihilates multiples of `2π`. -/
theorem normLoop_two_pi_mul (m : ℤ) : normLoop (2 * Real.pi * m) = 0 := by
  have h := normLoop_le_abs_rep (x := 2 * Real.pi * (m : ℝ)) (u := 0)
    ⟨-m, by push_cast; ring⟩
  rw [abs_zero] at h
  exact abs_eq_zero.1 (le_antisymm h (abs_nonneg _))

/-- A non-excluded read certifies the index is in range (the default entry
    is excluded). -/
theorem getE_false_lt {st : List Iv} {j : ℕ} (h : getE st j = false) :
    j < st.length := by
  by_contra hc
  push_neg at hc
  rw [getE, List.getD_eq_default _ _ hc] at h
  cases h

/-- Reading at the written index. -/
theorem getD_set_self {st : List Iv} {k : ℕ} (hk : k < st.length) (v d : Iv) :
    (st.set k v).getD k d = v := by
  rw [List.getD_eq_getElem _ _ (by simpa using hk)]
  simp [List.getElem_set]

/-- Reading away from the written index. -/
theorem getD_set_ne {st : List Iv} {k m : ℕ} (h : m ≠ k) (v d : Iv) :
    (st.set k v).getD m d = st.getD m d := by
  rcases Nat.lt_or_ge m st.length with hm | hm
  · rw [List.getD_eq_getElem _ _ (by simpa using hm),
      List.getD_eq_getElem _ _ hm]
    simp [List.getElem_set, (Ne.symm h)]
  · rw [List.getD_eq_default _ _ (by simpa using hm), List.getD_eq_default _ _ hm]

theorem getE_set_self {st : List Iv} {k : ℕ} (hk : k < st.length) (v : Iv) :
    getE (st.set k v) k = v.exc := by
  rw [getE, getD_set_self hk]

theorem getE_set_ne {st : List Iv} {k m : ℕ} (h : m ≠ k) (v : Iv) :
    getE (st.set k v) m = getE st m := by
  rw [getE, getD_set_ne h, getE]

theorem getA_set_self {st : List Iv} {k : ℕ} (hk : k < st.length) (v : Iv) :
    getA (st.set k v) k = v.a := by
  rw [getA, getD_set_self hk]

theorem getA_set_ne {st : List Iv} {k m : ℕ} (h : m ≠ k) (v : Iv) :
    getA (st.set k v) m = getA st m := by
  rw [getA, getD_set_ne h, getA]

theorem getB_set_self {st : List Iv} {k : ℕ} (hk : k < st.length) (v : Iv) :
    getB (st.set k v) k = v.b := by
  rw [getB, getD_set_self hk]

theorem getB_set_ne {st : List Iv} {k m : ℕ} (h : m ≠ k) (v : Iv) :
    getB (st.set k v) m = getB st m := by
  rw [getB, getD_set_ne h, getB]

theorem countExc_le (st : List Iv) : countExc st ≤ st.length :=
  List.length_filter_le _ _

/-- Unfold one entry of the excluded count. -/
theorem countExc_cons (t : Iv) (rest : List Iv) :
    countExc (t :: rest) = (if t.exc = true then 1 else 0) + countExc rest := by
  rw [countExc, countExc, List.filter_cons]
  cases hexc : t.exc <;> simp [hexc] <;> omega

/-- Excluding a previously active entry raises the excluded count by one. -/
theorem countExc_set_true {st : List Iv} :
    ∀ {k : ℕ}, getE st k = false → ∀ v : Iv, v.exc = true →
      countExc (st.set k v) = countExc st + 1 := by
  induction st with
  | nil =>
    intro k h
    rw [getE, List.getD_eq_default _ _ (by simp)] at h
    cases h
  | cons t rest ih =>
    intro k h v hv
    cases k with
    | zero =>
      have ht : t.exc = false := by
        rw [getE, List.getD_cons_zero] at h
        exact h
      rw [List.set_cons_zero, countExc_cons, countExc_cons, ht, hv]
      simp
      omega
    | succ k =>
      have h2 : getE rest k = false := by
        rw [getE, List.getD_cons_succ] at h
        exact h
      rw [List.set_cons_succ, countExc_cons, countExc_cons, ih h2 v hv]
      omega

/-- Overwriting an active entry with an active entry keeps the count. -/
theorem countExc_set_false {st : List Iv} :
    ∀ {k : ℕ}, getE st k = false → ∀ v : Iv, v.exc = false →
      countExc (st.set k v) = countExc st := by
  induction st with
  | nil =>
    intro k h
    rw [getE, List.getD_eq_default _ _ (by simp)] at h
    cases h
  | cons t rest ih =>
    intro k h v hv
    cases k with
    | zero =>
      have ht : t.exc = false := by
        rw [getE, List.getD_cons_zero] at h
        exact h
      rw [List.set_cons_zero, countExc_cons, countExc_cons, ht, hv]
    | succ k =>
      have h2 : getE rest k = false := by
        rw [getE, List.getD_cons_succ] at h
        exact h
      rw [List.set_cons_succ, countExc_cons, countExc_cons, ih h2 v hv]

/-- Unfold one entry of the compaction length. -/
theorem compact_cons_length (t : Iv) (rest : List Iv) :
    (compact (t :: rest)).length = (if t.exc = true then 0 else 1) + (compact rest).length := by
  rw [compact, compact, List.filterMap_cons]
  cases hexc : t.exc <;> simp [hexc] <;> omega

/-- Compaction keeps exactly the non-excluded entries. -/
theorem compact_length (st : List Iv) :
    (compact st).length + countExc st = st.length := by
  induction st with
  | nil => rfl
  | cons t rest ih =>
    rw [compact_cons_length, countExc_cons, List.length_cons]
    cases hexc : t.exc <;> simp [hexc] <;> omega

end SumAngles

section SumAnglesSpec

theorem length_mergeSt (st : List Iv) (i j : ℕ) :
    (mergeSt st i j).length = st.length := by
  rw [mergeSt, List.length_set, List.length_set]

/-- The merging step keeps `i` active. -/
theorem getE_mergeSt_i {st : List Iv} {i j : ℕ} (hij : i ≠ j)
    (hi : getE st i = false) : getE (mergeSt st i j) i = false := by
  rw [mergeSt, getE_set_ne hij, getE_set_self]
  · exact getE_false_lt hi

/-- The merging step excludes exactly one more entry. -/
theorem countExc_mergeSt {st : List Iv} {i j : ℕ} (hij : i ≠ j)
    (hi : getE st i = false) (hj : getE st j = false) :
    countExc (mergeSt st i j) = countExc st + 1 := by
  rw [mergeSt]
  rw [countExc_set_true (by rw [getE_set_ne (Ne.symm hij)]; exact hj) _ rfl]
  rw [countExc_set_false hi _ rfl]

/-- Structural bookkeeping of one inner scan: the state length is unchanged,
    `n_overlap` never decreases, each merged overlap excludes exactly one
    entry, and `i` stays active. -/
theorem innerLoop_spec (n i : ℕ) :
    ∀ (js : List ℕ) (st : List Iv) (nexc nov : ℕ) (st2 : List Iv)
      (nexc2 nov2 : ℕ) (brk : Bool),
      innerLoop n i js st nexc nov = some (st2, nexc2, nov2, brk) →
      getE st i = false →
      st2.length = st.length ∧ nov ≤ nov2 ∧
        countExc st2 + nov = countExc st + nov2 ∧ getE st2 i = false := by
  intro js
  induction js with
  | nil =>
    intro st nexc nov st2 nexc2 nov2 brk heq hi
    rw [innerLoop] at heq
    simp only [Option.some.injEq, Prod.mk.injEq] at heq
    obtain ⟨h1, _, h3, _⟩ := heq
    subst h1
    subst h3
    exact ⟨rfl, le_refl _, rfl, hi⟩
  | cons j js ih =>
    intro st nexc nov st2 nexc2 nov2 brk heq hi
    rw [innerLoop] at heq
    split_ifs at heq with h1 h2 h3 h4
    · exact ih st nexc nov st2 nexc2 nov2 brk heq hi
    · exact ih st nexc nov st2 nexc2 nov2 brk heq hi
    · have hj : getE st j = false := by
        cases hgE : getE st j
        · rfl
        · exact absurd (Or.inl hgE) h1
      have hij : i ≠ j := fun hc => h1 (Or.inr hc)
      simp only [Option.some.injEq, Prod.mk.injEq] at heq
      obtain ⟨he1, _, he3, _⟩ := heq
      subst he1
      subst he3
      refine ⟨length_mergeSt st i j, by omega, ?_, getE_mergeSt_i hij hi⟩
      rw [countExc_mergeSt hij hi hj]
      omega
    · have hj : getE st j = false := by
        cases hgE : getE st j
        · rfl
        · exact absurd (Or.inl hgE) h1
      have hij : i ≠ j := fun hc => h1 (Or.inr hc)
      obtain ⟨l1, l2, l3, l4⟩ := ih (mergeSt st i j) (nexc + 1) (nov + 1)
        st2 nexc2 nov2 brk heq (getE_mergeSt_i hij hi)
      refine ⟨by rw [l1, length_mergeSt], by omega, ?_, l4⟩
      rw [countExc_mergeSt hij hi hj] at l3
      omega

/-- The same bookkeeping for the whole merging pass. -/
theorem outerLoop_spec (n : ℕ) :
    ∀ (is : List ℕ) (st : List Iv) (nexc nov : ℕ) (st2 : List Iv) (nov2 : ℕ),
      outerLoop n is st nexc nov = some (st2, nov2) →
      st2.length = st.length ∧ nov ≤ nov2 ∧
        countExc st2 + nov = countExc st + nov2 := by
  intro is
  induction is with
  | nil =>
    intro st nexc nov st2 nov2 heq
    rw [outerLoop] at heq
    simp only [Option.some.injEq, Prod.mk.injEq] at heq
    obtain ⟨h1, h2⟩ := heq
    subst h1
    subst h2
    exact ⟨rfl, le_refl _, rfl⟩
  | cons i is ih =>
    intro st nexc nov st2 nov2 heq
    rw [outerLoop] at heq
    split_ifs at heq with hE
    · exact ih st nexc nov st2 nov2 heq
    · rw [Bool.not_eq_true] at hE
      rcases hin : innerLoop n i (List.range n) st nexc nov with _ | ⟨st1, nexc1, nov1, brk1⟩
      · rw [hin] at heq
        simp at heq
      · rw [hin] at heq
        obtain ⟨l1, l2, l3, _⟩ :=
          innerLoop_spec n i (List.range n) st nexc nov st1 nexc1 nov1 brk1 hin hE
        simp only at heq
        split_ifs at heq with hbrk
        · simp only [Option.some.injEq, Prod.mk.injEq] at heq
          obtain ⟨he1, he2⟩ := heq
          subst he1
          subst he2
          exact ⟨l1, l2, l3⟩
        · obtain ⟨m1, m2, m3⟩ := ih st1 nexc1 nov1 st2 nov2 heq
          exact ⟨by rw [m1, l1], by omega, by omega⟩

/-- One-step unfolding of the fueled `sasa_sum_angles`. -/
theorem sumAnglesFuel_succ (f : ℕ) (l : List (ℝ × ℝ)) :
    sumAnglesFuel (f + 1) l =
      match outerLoop l.length (List.range l.length)
          (l.map (fun p => ⟨p.1, p.2, false⟩)) 0 0 with
      | none => some 0
      | some (st2, nov) =>
        if nov ≠ 0 then sumAnglesFuel f (compact st2)
        else some (2 * Real.pi - (st2.map (fun t => 2 * t.a)).sum) := rfl

/-- The initial working state is fully active. -/
theorem countExc_map_mk (l : List (ℝ × ℝ)) :
    countExc (l.map (fun p => (⟨p.1, p.2, false⟩ : Iv))) = 0 := by
  induction l with
  | nil => rfl
  | cons p rest ih =>
    rw [List.map_cons, countExc_cons, ih]
    simp

/-- At fuel at least `max 1 n` the fueled recursion cannot run out: every
    pass that reports an overlap strictly shrinks the compacted list. -/
theorem sumAnglesFuel_isSome :
    ∀ (fuel : ℕ) (l : List (ℝ × ℝ)), 1 ≤ fuel → l.length ≤ fuel →
      (sumAnglesFuel fuel l).isSome = true := by
  intro fuel
  induction fuel with
  | zero =>
    intro l h1 _
    exact absurd h1 (by norm_num)
  | succ f ih =>
    intro l h1 hlen
    rcases (by omega : l.length ≤ 1 ∨ 2 ≤ l.length) with hs | hL2
    · rcases l with _ | ⟨p, _ | ⟨q, rest⟩⟩
      · rfl
      · rfl
      · simp only [List.length_cons] at hs
        omega
    rw [sumAnglesFuel_succ]
    rcases hout : outerLoop l.length (List.range l.length)
        (l.map (fun p => ⟨p.1, p.2, false⟩)) 0 0 with _ | ⟨st1, nov1⟩
    · rw [hout]
      rfl
    · rw [hout]
      show (if nov1 ≠ 0 then sumAnglesFuel f (compact st1)
        else some (2 * Real.pi - (st1.map (fun t => 2 * t.a)).sum)).isSome = true
      by_cases hnov : nov1 ≠ 0
      · rw [if_pos hnov]
        obtain ⟨l1, _, l3⟩ := outerLoop_spec l.length (List.range l.length)
          (l.map (fun p => ⟨p.1, p.2, false⟩)) 0 0 st1 nov1 hout
        rw [countExc_map_mk] at l3
        have hc1 : countExc st1 = nov1 := by omega
        have hc2 := countExc_le st1
        have hc3 := compact_length st1
        have hl1 : st1.length = l.length := by
          rw [l1, List.length_map]
        apply ih
        · omega
        · omega
      · rw [if_neg hnov]
        rfl

/-- C9: `sasa_sum_angles` terminates on every finite list of intervals: the
recursive call happens only when at least one overlap was merged, each merge
excludes one interval, the recursion receives only the non-excluded
intervals, so the interval count strictly decreases and recursion depth
`max 1 n` always suffices — the fueled model never runs dry. -/
theorem sum_angles_terminates (l : List (ℝ × ℝ)) :
    sumAnglesFuel (max 1 l.length) l = some (sumAngles l) := by
  have h := sumAnglesFuel_isSome (max 1 l.length) l (le_max_left 1 _) (le_max_right 1 _)
  rw [sumAngles]
  obtain ⟨x, hx⟩ := Option.isSome_iff_exists.mp h
  rw [hx]
  rfl

end SumAnglesSpec


section SumAnglesReplicate

/-- Setting at the boundary of the excluded prefix. -/
theorem replicate_append_set (E A v : Iv) (r : ℕ) :
    ∀ t : ℕ, (List.replicate t E ++ A :: List.replicate r A).set t v =
      List.replicate t E ++ v :: List.replicate r A := by
  intro t
  induction t with
  | zero => simp
  | succ t ih =>
    rw [List.replicate_succ, List.cons_append, List.set_cons_succ, ih,
      List.cons_append]

theorem getD_replicate_lt {n i : ℕ} (h : i < n) (a d : Iv) :
    (List.replicate n a).getD i d = a := by
  induction n generalizing i with
  | zero => omega
  | succ n ih =>
    cases i with
    | zero => rw [List.replicate_succ, List.getD_cons_zero]
    | succ i =>
      rw [List.replicate_succ, List.getD_cons_succ]
      exact ih (by omega)

theorem getD_append_right_iv (l1 l2 : List Iv) (d : Iv) :
    ∀ q, l1.length ≤ q → (l1 ++ l2).getD q d = l2.getD (q - l1.length) d := by
  induction l1 with
  | nil =>
    intro q h
    simp
  | cons x xs ih =>
    intro q h
    rw [List.length_cons] at h
    obtain ⟨q2, rfl⟩ : ∃ q2, q = q2 + 1 := ⟨q - 1, by omega⟩
    rw [List.cons_append, List.getD_cons_succ, ih q2 (by omega), List.length_cons]
    congr 1
    omega

theorem stMid_read_zero (al β b2 : ℝ) (t rem : ℕ) :
    (stMid al β b2 t rem).getD 0 ⟨0, 0, true⟩ = ⟨al, b2, false⟩ := rfl

theorem stMid_read_act (al β b2 : ℝ) (t rem p : ℕ) (h1 : t < p) (h2 : p ≤ t + rem) :
    (stMid al β b2 t rem).getD p ⟨0, 0, true⟩ = ⟨al, β, false⟩ := by
  obtain ⟨q, rfl⟩ : ∃ q, p = q + 1 := ⟨p - 1, by omega⟩
  rw [stMid, List.getD_cons_succ,
    getD_append_right_iv _ _ _ q (by rw [List.length_replicate]; omega),
    List.length_replicate]
  exact getD_replicate_lt (by omega) _ _

/-- The single-step renormalization shifts by a multiple of `2π`. -/
theorem renorm1_shift (x : ℝ) : ∃ c : ℤ, renorm1 x = x + 2 * Real.pi * c := by
  rw [renorm1]
  split_ifs with h1 h2
  · exact ⟨-1, by push_cast; ring⟩
  · exact ⟨1, by push_cast; ring⟩
  · exact ⟨0, by push_cast; ring⟩

/-- Merging the next untouched copy turns `stMid … t (r+1)` into
    `stMid … (t+1) r`. -/
theorem stMid_set (al β b2 bN : ℝ) (t r : ℕ) :
    ((stMid al β b2 t (r + 1)).set 0 ⟨al, bN, false⟩).set (t + 1) ⟨0, β, true⟩ =
      stMid al β bN (t + 1) r := by
  rw [stMid, List.set_cons_zero, List.set_cons_succ, List.replicate_succ,
    replicate_append_set, stMid]
  congr 1
  rw [List.replicate_succ', List.append_assoc, List.singleton_append]

/-- The initial state on `k+1` copies. -/
theorem stMid_start (al β : ℝ) (k : ℕ) :
    List.replicate (k + 1) (⟨al, β, false⟩ : Iv) = stMid al β β 0 k := by
  rw [stMid, List.replicate_succ]
  simp

theorem filterMap_replicate_exc (β : ℝ) :
    ∀ t : ℕ, (List.replicate t (⟨0, β, true⟩ : Iv)).filterMap
      (fun t => if t.exc then none else some (t.a, t.b)) = [] := by
  intro t
  induction t with
  | zero => rfl
  | succ t ih =>
    rw [List.replicate_succ, List.filterMap_cons]
    simp [ih]

/-- After the pass everything but the accumulator is excluded. -/
theorem compact_stMid (al β b2 : ℝ) (t : ℕ) :
    compact (stMid al β b2 t 0) = [(al, b2)] := by
  rw [stMid, compact, List.filterMap_cons]
  simp [List.filterMap_append, filterMap_replicate_exc β t]

theorem map_mk_replicate (k : ℕ) (a b : ℝ) :
    (List.replicate k (a, b)).map (fun p => (⟨p.1, p.2, false⟩ : Iv)) =
      List.replicate k ⟨a, b, false⟩ := by
  simp [List.map_replicate]

/-- `sasa_sum_angles` on exactly one interval: `2π − 2a`. -/
theorem sumAnglesFuel_singleton (f : ℕ) (a b : ℝ) :
    sumAnglesFuel (f + 1) [(a, b)] = some (2 * Real.pi - 2 * a) := by
  rw [sumAnglesFuel_succ]
  rw [show outerLoop (List.length [((a : ℝ), (b : ℝ))]) (List.range (List.length [((a : ℝ), (b : ℝ))]))
      ([((a : ℝ), (b : ℝ))].map (fun p => (⟨p.1, p.2, false⟩ : Iv))) 0 0 =
      some ([⟨a, b, false⟩], 0) from rfl]
  simp

/-- Symbolic execution of the inner scan on `stMid`: every remaining copy is
    merged into the accumulator (its normalized gap is a multiple of `2π`,
    hence `0`), and the scan ends with the `n_exc == n−1` break. -/
theorem innerLoop_stMid (al β : ℝ) (h0 : 0 < al) (hpi : al < Real.pi) (k : ℕ) :
    ∀ (rem : ℕ), 1 ≤ rem → ∀ (t : ℕ) (m : ℤ), t + rem = k - 1 →
      ∃ m2 : ℤ,
        innerLoop k 0 (List.range' (t + 1) rem)
            (stMid al β (β + 2 * Real.pi * m) t rem) t t =
          some (stMid al β (β + 2 * Real.pi * m2) (t + rem) 0, t + rem, t + rem, true) := by
  intro rem
  induction rem with
  | zero =>
    intro h
    exact absurd h (by norm_num)
  | succ r ih =>
    intro hr t m htr
    have hEj : getE (stMid al β (β + 2 * Real.pi * m) t (r + 1)) (t + 1) = false := by
      rw [getE, stMid_read_act _ _ _ _ _ _ (by omega) (by omega)]
    have hA0 : getA (stMid al β (β + 2 * Real.pi * m) t (r + 1)) 0 = al := by
      rw [getA, stMid_read_zero]
    have hB0 : getB (stMid al β (β + 2 * Real.pi * m) t (r + 1)) 0 = β + 2 * Real.pi * m := by
      rw [getB, stMid_read_zero]
    have hAj : getA (stMid al β (β + 2 * Real.pi * m) t (r + 1)) (t + 1) = al := by
      rw [getA, stMid_read_act _ _ _ _ _ _ (by omega) (by omega)]
    have hBj : getB (stMid al β (β + 2 * Real.pi * m) t (r + 1)) (t + 1) = β := by
      rw [getB, stMid_read_act _ _ _ _ _ _ (by omega) (by omega)]
    have hgap : gapD (stMid al β (β + 2 * Real.pi * m) t (r + 1)) 0 (t + 1) = 0 := by
      rw [gapD, hBj, hB0,
        show β - (β + 2 * Real.pi * m) = 2 * Real.pi * ((-m : ℤ) : ℝ) by push_cast; ring]
      exact normLoop_two_pi_mul (-m)
    have hsup : mergeSup (stMid al β (β + 2 * Real.pi * m) t (r + 1)) 0 (t + 1) =
        (β + 2 * Real.pi * m) + al := by
      rw [mergeSup, hgap, hB0, hA0, hAj, add_zero, max_self]
    have hinf : mergeInf (stMid al β (β + 2 * Real.pi * m) t (r + 1)) 0 (t + 1) =
        (β + 2 * Real.pi * m) - al := by
      rw [mergeInf, hgap, hB0, hA0, hAj, add_zero, min_self]
    have hA : mergeA (stMid al β (β + 2 * Real.pi * m) t (r + 1)) 0 (t + 1) = al := by
      rw [mergeA, hsup, hinf]
      ring
    have hBm : mergeB0 (stMid al β (β + 2 * Real.pi * m) t (r + 1)) 0 (t + 1) =
        β + 2 * Real.pi * m := by
      rw [mergeB0, hsup, hinf]
      ring
    obtain ⟨c, hc⟩ := renorm1_shift (β + 2 * Real.pi * m)
    have hmerge : mergeSt (stMid al β (β + 2 * Real.pi * m) t (r + 1)) 0 (t + 1) =
        stMid al β (β + 2 * Real.pi * ((m + c : ℤ) : ℝ)) (t + 1) r := by
      rw [mergeSt, hA, hBm, hc, hBj,
        show (β + 2 * Real.pi * m) + 2 * Real.pi * c =
          β + 2 * Real.pi * ((m + c : ℤ) : ℝ) by push_cast; ring]
      exact stMid_set al β (β + 2 * Real.pi * (m : ℝ)) (β + 2 * Real.pi * ((m + c : ℤ) : ℝ)) t r
    rw [List.range'_succ, innerLoop]
    rw [if_neg (by
      rw [hEj]
      rintro (hcc | hcc)
      · simp at hcc
      · omega)]
    rw [if_neg (by
      rw [hgap, hA0, hAj]
      intro hcc
      rw [abs_zero] at hcc
      linarith)]
    rw [if_neg (by rw [hA]; exact not_lt.2 hpi.le)]
    cases r with
    | zero =>
      rw [if_pos (by omega : t + 1 = k - 1)]
      refine ⟨m + c, ?_⟩
      rw [hmerge]
    | succ r2 =>
      rw [if_neg (by omega : ¬(t + 1 = k - 1))]
      rw [hmerge]
      obtain ⟨m3, hm3⟩ := ih (by omega) (t + 1) (m + c) (by omega)
      refine ⟨m3, ?_⟩
      have he : (t + 1) + (r2 + 1) = t + (r2 + 1 + 1) := by omega
      rw [he] at hm3
      exact hm3

end SumAnglesReplicate

/-- C7: `sasa_sum_angles` on the single interval `[β−α, β+α]` with
`0 < α < π` returns `2π − 2α`, and on that same interval repeated `k` times
(any `k ≥ 1`) it also returns `2π − 2α`: the duplicates are merged away
without changing the union of arcs. -/
theorem sum_angles_single_interval (al β : ℝ) (k : ℕ) (h0 : 0 < al)
    (hpi : al < Real.pi) (hk : 1 ≤ k) :
    sumAngles (List.replicate k (al, β)) = 2 * Real.pi - 2 * al := by
  rcases k with _ | ⟨_ | k2⟩
  · omega
  · rw [sumAngles,
      show (List.replicate 1 ((al : ℝ), (β : ℝ))).length = 1 from rfl,
      show max 1 1 = 1 from rfl,
      show List.replicate 1 ((al : ℝ), (β : ℝ)) = [(al, β)] from rfl,
      show (1 : ℕ) = 0 + 1 from rfl,
      sumAnglesFuel_singleton 0 al β]
    rfl
  · obtain ⟨m2, hm2⟩ := innerLoop_stMid al β h0 hpi (k2 + 2) (k2 + 1) (by omega) 0 0 (by omega)
    rw [show β + 2 * Real.pi * ((0 : ℤ) : ℝ) = β by push_cast; ring] at hm2
    rw [show (0 : ℕ) + (k2 + 1) = k2 + 1 by omega] at hm2
    rw [show (0 : ℕ) + 1 = 1 from rfl] at hm2
    have hinner : innerLoop (k2 + 2) 0 (List.range (k2 + 2))
        (List.replicate (k2 + 2) (⟨al, β, false⟩ : Iv)) 0 0 =
        some (stMid al β (β + 2 * Real.pi * m2) (k2 + 1) 0, k2 + 1, k2 + 1, true) := by
      rw [List.range_eq_range', List.range'_succ, innerLoop, if_pos (Or.inr rfl),
        show (0 : ℕ) + 1 = 1 from rfl,
        show List.replicate (k2 + 2) (⟨al, β, false⟩ : Iv) = stMid al β β 0 (k2 + 1) from
          stMid_start al β (k2 + 1)]
      exact hm2
    have hout : outerLoop (k2 + 2) (List.range (k2 + 2))
        (List.replicate (k2 + 2) (⟨al, β, false⟩ : Iv)) 0 0 =
        some (stMid al β (β + 2 * Real.pi * m2) (k2 + 1) 0, k2 + 1) := by
      rw [List.range_eq_range', List.range'_succ, outerLoop]
      have hE : getE (List.replicate (k2 + 2) (⟨al, β, false⟩ : Iv)) 0 = false := by
        rw [getE, List.replicate_succ, List.getD_cons_zero]
      rw [if_neg (by rw [hE]; simp)]
      simp only [hinner]
      rw [if_pos (by omega : k2 + 1 = (k2 + 2) - 1)]
    rw [sumAngles]
    have hlen : (List.replicate (k2 + 2) ((al : ℝ), (β : ℝ))).length = k2 + 2 := by simp
    rw [hlen, show max 1 (k2 + 2) = k2 + 2 by omega,
      show (k2 + 2 : ℕ) = (k2 + 1) + 1 from rfl, sumAnglesFuel_succ, hlen,
      map_mk_replicate]
    simp only [hout]
    rw [if_pos (by omega : k2 + 1 ≠ 0), compact_stMid,
      sumAnglesFuel_singleton k2 al (β + 2 * Real.pi * m2)]
    rfl

/-- Witness for C7 at `α = 1`, `β = 0`, `k = 2`. -/
theorem sum_angles_single_interval_witness :
    sumAngles (List.replicate 2 ((1 : ℝ), (0 : ℝ))) = 2 * Real.pi - 2 * 1 :=
  sum_angles_single_interval 1 0 2 one_pos (by linarith [Real.pi_gt_three]) (by norm_num)


/-! ## Non-negativity: invariants of the merging pass -/

section SumAnglesRange

/-- Reads from a state satisfying the invariant satisfy it too (the
    out-of-range default is inert). -/
theorem IvOk_read {st : List Iv} (h : ∀ t ∈ st, IvOk t) (i : ℕ) :
    IvOk (st.getD i ⟨0, 0, true⟩) := by
  rcases Nat.lt_or_ge i st.length with hi | hi
  · rw [List.getD_eq_getElem _ _ hi]
    exact h _ (List.getElem_mem hi)
  · rw [List.getD_eq_default _ _ hi]
    exact ⟨le_refl 0, Real.pi_nonneg, by rw [abs_zero]; exact Real.pi_nonneg⟩

/-- Values within `3π` of zero renormalize into `[−π, π]` in one step. -/
theorem renorm1_mem {x : ℝ} (h : |x| ≤ 3 * Real.pi) : |renorm1 x| ≤ Real.pi := by
  have hπ := Real.pi_pos
  have h2 := abs_le.1 h
  rw [renorm1]
  split_ifs with h1 hm
  · exact abs_le.2 ⟨by linarith, by linarith⟩
  · exact abs_le.2 ⟨by linarith, by linarith⟩
  · exact abs_le.2 ⟨by linarith [not_lt.1 hm], by linarith [not_lt.1 h1]⟩

/-- A small-enough merge keeps the interval invariant. -/
theorem mergeSt_ok {st : List Iv} (h : ∀ t ∈ st, IvOk t) {i j : ℕ}
    (hA : ¬mergeA st i j > Real.pi) :
    ∀ t ∈ mergeSt st i j, IvOk t := by
  have hi := IvOk_read h i
  have hj := IvOk_read h j
  have hai : 0 ≤ getA st i := hi.1
  have haj : 0 ≤ getA st j := hj.1
  have hbi : |getB st i| ≤ Real.pi := hi.2.2
  have hinf1 : mergeInf st i j ≤ getB st i - getA st i := min_le_left _ _
  have hsup1 : getB st i + getA st i ≤ mergeSup st i j := le_max_left _ _
  have hA2 : mergeA st i j ≤ Real.pi := not_lt.1 hA
  have hA0 : 0 ≤ mergeA st i j := by rw [mergeA]; linarith
  have hmA : mergeSup st i j - mergeInf st i j = 2 * mergeA st i j := by
    rw [mergeA]; ring
  have hB0b : |mergeB0 st i j| ≤ 3 * Real.pi := by
    have h1 : |mergeB0 st i j - getB st i| ≤ mergeA st i j := by
      rw [abs_le]
      constructor
      · rw [mergeB0, mergeA]
        linarith
      · rw [mergeB0, mergeA]
        linarith
    calc |mergeB0 st i j| = |(mergeB0 st i j - getB st i) + getB st i| := by ring_nf
      _ ≤ |mergeB0 st i j - getB st i| + |getB st i| := abs_add _ _
      _ ≤ 3 * Real.pi := by linarith
  intro t ht
  rcases List.mem_or_eq_of_mem_set ht with ht2 | rfl
  · rcases List.mem_or_eq_of_mem_set ht2 with ht3 | rfl
    · exact h t ht3
    · exact ⟨hA0, hA2, renorm1_mem hB0b⟩
  · exact ⟨le_refl 0, Real.pi_nonneg, hj.2.2⟩

/-- The inner scan preserves the invariant. -/
theorem innerLoop_ok (n i : ℕ) :
    ∀ (js : List ℕ) (st : List Iv) (nexc nov : ℕ) (st2 : List Iv)
      (nexc2 nov2 : ℕ) (brk : Bool),
      innerLoop n i js st nexc nov = some (st2, nexc2, nov2, brk) →
      (∀ t ∈ st, IvOk t) → ∀ t ∈ st2, IvOk t := by
  intro js
  induction js with
  | nil =>
    intro st nexc nov st2 nexc2 nov2 brk heq h
    rw [innerLoop] at heq
    simp only [Option.some.injEq, Prod.mk.injEq] at heq
    obtain ⟨h1, _, _, _⟩ := heq
    subst h1
    exact h
  | cons j js ih =>
    intro st nexc nov st2 nexc2 nov2 brk heq h
    rw [innerLoop] at heq
    split_ifs at heq with h1 h2 h3
    · exact ih st nexc nov st2 nexc2 nov2 brk heq h
    · exact ih st nexc nov st2 nexc2 nov2 brk heq h
    · simp only [Option.some.injEq, Prod.mk.injEq] at heq
      obtain ⟨he1, _, _, _⟩ := heq
      subst he1
      exact mergeSt_ok h h3
    · exact ih (mergeSt st i j) (nexc + 1) (nov + 1) st2 nexc2 nov2 brk heq
        (mergeSt_ok h h3)

/-- The whole merging pass preserves the invariant. -/
theorem outerLoop_ok (n : ℕ) :
    ∀ (is : List ℕ) (st : List Iv) (nexc nov : ℕ) (st2 : List Iv) (nov2 : ℕ),
      outerLoop n is st nexc nov = some (st2, nov2) →
      (∀ t ∈ st, IvOk t) → ∀ t ∈ st2, IvOk t := by
  intro is
  induction is with
  | nil =>
    intro st nexc nov st2 nov2 heq h
    rw [outerLoop] at heq
    simp only [Option.some.injEq, Prod.mk.injEq] at heq
    obtain ⟨h1, _⟩ := heq
    subst h1
    exact h
  | cons i is ih =>
    intro st nexc nov st2 nov2 heq h
    rw [outerLoop] at heq
    split_ifs at heq with hE
    · exact ih st nexc nov st2 nov2 heq h
    · rcases hin : innerLoop n i (List.range n) st nexc nov with _ | ⟨st1, nexc1, nov1, brk1⟩
      · rw [hin] at heq
        simp at heq
      · rw [hin] at heq
        have h1 := innerLoop_ok n i (List.range n) st nexc nov st1 nexc1 nov1 brk1 hin h
        simp only at heq
        split_ifs at heq with hbrk
        · simp only [Option.some.injEq, Prod.mk.injEq] at heq
          obtain ⟨he1, _⟩ := heq
          subst he1
          exact h1
        · exact ih st1 nexc1 nov1 st2 nov2 heq h1

/-- If an inner scan merged nothing, it changed nothing, and every scanned
    active partner was separated. -/
theorem innerLoop_noov (n i : ℕ) :
    ∀ (js : List ℕ) (st : List Iv) (nexc nov : ℕ) (st2 : List Iv)
      (nexc2 nov2 : ℕ) (brk : Bool),
      innerLoop n i js st nexc nov = some (st2, nexc2, nov2, brk) →
      getE st i = false → nov2 = nov →
      st2 = st ∧ nexc2 = nexc ∧
        ∀ j ∈ js, getE st j = false → i ≠ j →
          |gapD st i j| > getA st i + getA st j := by
  intro js
  induction js with
  | nil =>
    intro st nexc nov st2 nexc2 nov2 brk heq _ _
    rw [innerLoop] at heq
    simp only [Option.some.injEq, Prod.mk.injEq] at heq
    obtain ⟨h1, h2, _, _⟩ := heq
    subst h1
    subst h2
    exact ⟨rfl, rfl, fun j hj => absurd hj (List.not_mem_nil j)⟩
  | cons j js ih =>
    intro st nexc nov st2 nexc2 nov2 brk heq hi hnov
    rw [innerLoop] at heq
    split_ifs at heq with h1 h2 h3
    · obtain ⟨l1, l2, l3⟩ := ih st nexc nov st2 nexc2 nov2 brk heq hi hnov
      refine ⟨l1, l2, ?_⟩
      intro j2 hj2 hE2 hij2
      rcases List.mem_cons.1 hj2 with rfl | hj3
      · exact absurd h1 (by rw [hE2]; simp [hij2])
      · exact l3 j2 hj3 hE2 hij2
    · obtain ⟨l1, l2, l3⟩ := ih st nexc nov st2 nexc2 nov2 brk heq hi hnov
      refine ⟨l1, l2, ?_⟩
      intro j2 hj2 hE2 hij2
      rcases List.mem_cons.1 hj2 with rfl | hj3
      · exact h2
      · exact l3 j2 hj3 hE2 hij2
    · simp only [Option.some.injEq, Prod.mk.injEq] at heq
      obtain ⟨_, _, he3, _⟩ := heq
      omega
    · have hj : getE st j = false := by
        cases hgE : getE st j
        · rfl
        · exact absurd (Or.inl hgE) h1
      have hij : i ≠ j := fun hc => h1 (Or.inr hc)
      obtain ⟨_, hmono, _, _⟩ := innerLoop_spec n i js (mergeSt st i j) (nexc + 1)
        (nov + 1) st2 nexc2 nov2 brk heq (getE_mergeSt_i hij hi)
      omega

/-- If the whole pass merged nothing and never hit the break, the state is
    unchanged and all active pairs are separated. -/
theorem outerLoop_noov (n : ℕ) :
    ∀ (is : List ℕ) (st : List Iv) (nexc nov : ℕ) (st2 : List Iv) (nov2 : ℕ),
      outerLoop n is st nexc nov = some (st2, nov2) → nov2 = nov →
      nexc ≠ n - 1 →
      st2 = st ∧
        ∀ i ∈ is, getE st i = false →
          ∀ j ∈ List.range n, getE st j = false → i ≠ j →
            |gapD st i j| > getA st i + getA st j := by
  intro is
  induction is with
  | nil =>
    intro st nexc nov st2 nov2 heq _ _
    rw [outerLoop] at heq
    simp only [Option.some.injEq, Prod.mk.injEq] at heq
    obtain ⟨h1, _⟩ := heq
    subst h1
    exact ⟨rfl, fun i hi => absurd hi (List.not_mem_nil i)⟩
  | cons i is ih =>
    intro st nexc nov st2 nov2 heq hnov hnx
    rw [outerLoop] at heq
    split_ifs at heq with hE
    · obtain ⟨l1, l2⟩ := ih st nexc nov st2 nov2 heq hnov hnx
      refine ⟨l1, ?_⟩
      intro i2 hi2 hE2
      rcases List.mem_cons.1 hi2 with rfl | hi3
      · rw [hE] at hE2
        cases hE2
      · exact l2 i2 hi3 hE2
    · have hEi : getE st i = false := by
        cases hgE : getE st i
        · rfl
        · exact absurd hgE hE
      rcases hin : innerLoop n i (List.range n) st nexc nov with _ | ⟨st1, nexc1, nov1, brk1⟩
      · rw [hin] at heq
        simp at heq
      · rw [hin] at heq
        obtain ⟨_, hm1, _, _⟩ := innerLoop_spec n i (List.range n) st nexc nov
          st1 nexc1 nov1 brk1 hin hEi
        simp only at heq
        split_ifs at heq with hbrk
        · simp only [Option.some.injEq, Prod.mk.injEq] at heq
          obtain ⟨he1, he2⟩ := heq
          obtain ⟨l1, l2, _⟩ := innerLoop_noov n i (List.range n) st nexc nov
            st1 nexc1 nov1 brk1 hin hEi (by omega)
          exact absurd (l2 ▸ hbrk) hnx
        · obtain ⟨_, hm2, _⟩ := outerLoop_spec n is st1 nexc1 nov1 st2 nov2 heq
          have hnov1 : nov1 = nov := by omega
          obtain ⟨l1, l2, l3⟩ := innerLoop_noov n i (List.range n) st nexc nov
            st1 nexc1 nov1 brk1 hin hEi hnov1
          rw [l1, l2, hnov1] at heq
          obtain ⟨m1, m2⟩ := ih st nexc nov st2 nov2 heq (by omega) hnx
          refine ⟨m1, ?_⟩
          intro i2 hi2 hE2
          rcases List.mem_cons.1 hi2 with rfl | hi3
          · exact l3
          · exact m2 i2 hi3 hE2

end SumAnglesRange


section SepGeometry

theorem shiftUp_mem {b : ℝ} (h : |b| ≤ Real.pi) :
    0 ≤ shiftUp b ∧ shiftUp b < 2 * Real.pi := by
  have hπ := Real.pi_pos
  have h2 := abs_le.1 h
  rw [shiftUp]
  split_ifs with h1
  · exact ⟨by linarith, by linarith⟩
  · exact ⟨by linarith [not_lt.1 h1], by linarith⟩

theorem shiftUp_shift (b : ℝ) : ∃ c : ℤ, shiftUp b = b + 2 * Real.pi * c := by
  rw [shiftUp]
  split_ifs
  · exact ⟨1, by push_cast; ring⟩
  · exact ⟨0, by push_cast; ring⟩

/-- Translate center-gap separation into shifted coordinates: both the
    direct distance and the wrap distance exceed the summed half-widths. -/
theorem Rsep_of_sep {p q : ℝ × ℝ} (hp : |p.2| ≤ Real.pi) (hq : |q.2| ≤ Real.pi)
    (hsep : p.1 + q.1 < |normLoop (q.2 - p.2)|) :
    Rsep (p.1, shiftUp p.2) (q.1, shiftUp q.2) := by
  obtain ⟨cp, hcp⟩ := shiftUp_shift p.2
  obtain ⟨cq, hcq⟩ := shiftUp_shift q.2
  have h1 : |normLoop (q.2 - p.2)| ≤ |shiftUp q.2 - shiftUp p.2| :=
    normLoop_le_abs_rep ⟨cq - cp, by rw [hcp, hcq]; push_cast; ring⟩
  have h2 : |normLoop (q.2 - p.2)| ≤ |shiftUp q.2 - shiftUp p.2 - 2 * Real.pi| :=
    normLoop_le_abs_rep ⟨cq - cp - 1, by rw [hcp, hcq]; push_cast; ring⟩
  have h3 : |normLoop (q.2 - p.2)| ≤ |shiftUp q.2 - shiftUp p.2 + 2 * Real.pi| :=
    normLoop_le_abs_rep ⟨cq - cp + 1, by rw [hcp, hcq]; push_cast; ring⟩
  have hxp := shiftUp_mem hp
  have hxq := shiftUp_mem hq
  constructor
  · show p.1 + q.1 < |shiftUp q.2 - shiftUp p.2|
    linarith
  · show p.1 + q.1 < 2 * Real.pi - |shiftUp q.2 - shiftUp p.2|
    rcases le_or_lt (shiftUp p.2) (shiftUp q.2) with hle | hlt
    · have he : |shiftUp q.2 - shiftUp p.2 - 2 * Real.pi| =
          2 * Real.pi - |shiftUp q.2 - shiftUp p.2| := by
        rw [abs_of_nonpos (by linarith [hxq.2, hxp.1]),
          abs_of_nonneg (by linarith : (0 : ℝ) ≤ shiftUp q.2 - shiftUp p.2)]
        ring
      rw [he] at h2
      linarith
    · have he : |shiftUp q.2 - shiftUp p.2 + 2 * Real.pi| =
          2 * Real.pi - |shiftUp q.2 - shiftUp p.2| := by
        rw [abs_of_nonneg (by linarith [hxp.2, hxq.1]),
          abs_of_neg (by linarith : shiftUp q.2 - shiftUp p.2 < 0)]
        ring
      rw [he] at h3
      linarith

/-- The span of a sorted chain of separated arcs dominates their total
    length (up to the two end half-widths). -/
theorem chain_span :
    ∀ (l : List (ℝ × ℝ)) (p : ℝ × ℝ),
      List.Pairwise (fun u v : ℝ × ℝ => u.2 ≤ v.2) (p :: l) →
      List.Pairwise Rsep (p :: l) →
      2 * (((p :: l).map (fun u => u.1)).sum) ≤
        ((p :: l).getLast (List.cons_ne_nil p l)).2 - p.2 + p.1 +
          ((p :: l).getLast (List.cons_ne_nil p l)).1
  | [], p, _, _ => by
    simp [List.getLast]
    linarith
  | q :: rest, p, hsort, hsep => by
    obtain ⟨hsp, hsort2⟩ := List.pairwise_cons.1 hsort
    obtain ⟨hpp, hsep2⟩ := List.pairwise_cons.1 hsep
    have IH := chain_span rest q hsort2 hsep2
    have hRpq : Rsep p q := hpp q (List.mem_cons_self q rest)
    have hxpq : p.2 ≤ q.2 := hsp q (List.mem_cons_self q rest)
    have hstep : p.1 + q.1 < q.2 - p.2 := by
      have h1 := hRpq.1
      rw [abs_of_nonneg (by linarith)] at h1
      exact h1
    rw [List.getLast_cons (List.cons_ne_nil q rest), List.map_cons, List.sum_cons]
    linarith

/-- Sorted, separated arcs in `[0, 2π)` have total length at most `2π`. -/
theorem sum_two_le_two_pi (l : List (ℝ × ℝ))
    (ha : ∀ p ∈ l, 0 ≤ p.1 ∧ p.1 ≤ Real.pi)
    (hx : ∀ p ∈ l, 0 ≤ p.2 ∧ p.2 < 2 * Real.pi)
    (hsort : List.Pairwise (fun u v : ℝ × ℝ => u.2 ≤ v.2) l)
    (hsep : List.Pairwise Rsep l) :
    2 * ((l.map (fun u => u.1)).sum) ≤ 2 * Real.pi := by
  rcases l with _ | ⟨p, _ | ⟨q, rest⟩⟩
  · simp
    positivity
  · simp only [List.map_cons, List.map_nil, List.sum_cons, List.sum_nil]
    have h1 := (ha p (by simp)).2
    linarith
  · have hchain := chain_span (q :: rest) p hsort hsep
    have hwmem : ((p :: q :: rest).getLast (List.cons_ne_nil p (q :: rest))) ∈
        p :: q :: rest := List.getLast_mem _
    have hRsep : Rsep p ((p :: q :: rest).getLast (List.cons_ne_nil p (q :: rest))) := by
      obtain ⟨hpp, _⟩ := List.pairwise_cons.1 hsep
      rw [List.getLast_cons (List.cons_ne_nil q rest)]
      exact hpp _ (List.getLast_mem _)
    have hxw : p.2 ≤ ((p :: q :: rest).getLast (List.cons_ne_nil p (q :: rest))).2 := by
      obtain ⟨hsp, _⟩ := List.pairwise_cons.1 hsort
      rw [List.getLast_cons (List.cons_ne_nil q rest)]
      exact hsp _ (List.getLast_mem _)
    have h2 := hRsep.2
    rw [abs_of_nonneg (by linarith)] at h2
    linarith

theorem sum_map_two (l : List (ℝ × ℝ)) :
    (l.map (fun p => 2 * p.1)).sum = 2 * ((l.map (fun u => u.1)).sum) := by
  induction l with
  | nil => simp
  | cons p rest ih =>
    simp [ih]
    ring

/-- Pairwise-separated arcs within the invariant have total length at most
    `2π`: shift to `[0, 2π)`, sort by center, and chain the gaps. -/
theorem sum_two_alpha_le (l : List (ℝ × ℝ)) (hok : ∀ p ∈ l, pOk p)
    (hsep : List.Pairwise (fun p q : ℝ × ℝ => p.1 + q.1 < |normLoop (q.2 - p.2)|) l) :
    (l.map (fun p => 2 * p.1)).sum ≤ 2 * Real.pi := by
  haveI hTot : IsTotal (ℝ × ℝ) (fun u v : ℝ × ℝ => u.2 ≤ v.2) :=
    ⟨fun a b => le_total a.2 b.2⟩
  haveI hTrans : IsTrans (ℝ × ℝ) (fun u v : ℝ × ℝ => u.2 ≤ v.2) :=
    ⟨fun a b c h1 h2 => le_trans h1 h2⟩
  have hperm : (List.insertionSort (fun u v : ℝ × ℝ => u.2 ≤ v.2)
      (l.map (fun p => (p.1, shiftUp p.2)))).Perm
      (l.map (fun p => (p.1, shiftUp p.2))) := List.perm_insertionSort _ _
  have hsorted : List.Pairwise (fun u v : ℝ × ℝ => u.2 ≤ v.2)
      (List.insertionSort (fun u v : ℝ × ℝ => u.2 ≤ v.2)
        (l.map (fun p => (p.1, shiftUp p.2)))) :=
    List.sorted_insertionSort _ _
  have hRsymm : Symmetric Rsep := by
    intro a b h
    exact ⟨by rw [abs_sub_comm, add_comm]; exact h.1,
      by rw [abs_sub_comm, add_comm]; exact h.2⟩
  have hsepP : List.Pairwise Rsep (l.map (fun p => (p.1, shiftUp p.2))) := by
    rw [List.pairwise_map]
    refine List.Pairwise.imp_of_mem ?_ hsep
    intro a b ha hb hr
    exact Rsep_of_sep (hok a ha).2.2 (hok b hb).2.2 hr
  have hsepS : List.Pairwise Rsep (List.insertionSort (fun u v : ℝ × ℝ => u.2 ≤ v.2)
      (l.map (fun p => (p.1, shiftUp p.2)))) :=
    (hperm.pairwise_iff (fun hab => hRsymm hab)).2 hsepP
  have hmemS : ∀ p ∈ List.insertionSort (fun u v : ℝ × ℝ => u.2 ≤ v.2)
      (l.map (fun p => (p.1, shiftUp p.2))),
      (0 ≤ p.1 ∧ p.1 ≤ Real.pi) ∧ (0 ≤ p.2 ∧ p.2 < 2 * Real.pi) := by
    intro p hp
    have hp2 : p ∈ l.map (fun p => (p.1, shiftUp p.2)) := hperm.subset hp
    obtain ⟨p0, hp0, rfl⟩ := List.mem_map.1 hp2
    have hok0 := hok p0 hp0
    exact ⟨⟨hok0.1, hok0.2.1⟩, shiftUp_mem hok0.2.2⟩
  have hsum1 : ((List.insertionSort (fun u v : ℝ × ℝ => u.2 ≤ v.2)
      (l.map (fun p => (p.1, shiftUp p.2)))).map (fun u => u.1)).sum =
      ((l.map (fun p => (p.1, shiftUp p.2))).map (fun u => u.1)).sum :=
    (hperm.map (fun u => u.1)).sum_eq
  have hsum2 : ((l.map (fun p => (p.1, shiftUp p.2))).map (fun u => u.1)).sum =
      ((l.map (fun u => u.1)).sum) := by
    rw [List.map_map]
    rfl
  rw [sum_map_two]
  calc 2 * ((l.map (fun u => u.1)).sum)
      = 2 * (((List.insertionSort (fun u v : ℝ × ℝ => u.2 ≤ v.2)
          (l.map (fun p => (p.1, shiftUp p.2)))).map (fun u => u.1)).sum) := by
        rw [hsum1, hsum2]
    _ ≤ 2 * Real.pi := sum_two_le_two_pi _ (fun p hp => (hmemS p hp).1)
        (fun p hp => (hmemS p hp).2) hsorted hsepS

end SepGeometry


section SumAnglesIcc

/-- Reading the initial working state. -/
theorem st0_read (l : List (ℝ × ℝ)) {a : ℕ} (ha : a < l.length) :
    (l.map (fun p => (⟨p.1, p.2, false⟩ : Iv))).getD a ⟨0, 0, true⟩ =
      ⟨(l.get ⟨a, ha⟩).1, (l.get ⟨a, ha⟩).2, false⟩ := by
  rw [List.getD_eq_getElem _ _ (by simpa using ha)]
  simp [List.getElem_map]

/-- Any value `sasa_sum_angles` actually returns lies in `[0, 2π]`, provided
    every input interval satisfies the invariant. -/
theorem sumAnglesFuel_mem (fuel : ℕ) :
    ∀ (l : List (ℝ × ℝ)) (x : ℝ), (∀ p ∈ l, pOk p) →
      sumAnglesFuel fuel l = some x → 0 ≤ x ∧ x ≤ 2 * Real.pi := by
  induction fuel with
  | zero =>
    intro l x _ heq
    rw [show sumAnglesFuel 0 l = none from rfl] at heq
    cases heq
  | succ f ih =>
    intro l x hok heq
    rw [sumAnglesFuel_succ] at heq
    rcases hout : outerLoop l.length (List.range l.length)
        (l.map (fun p => ⟨p.1, p.2, false⟩)) 0 0 with _ | ⟨st1, nov1⟩
    · rw [hout] at heq
      have heq2 : some (0 : ℝ) = some x := heq
      obtain rfl := Option.some.inj heq2
      exact ⟨le_refl 0, by positivity⟩
    · rw [hout] at heq
      have heq2 : (if nov1 ≠ 0 then sumAnglesFuel f (compact st1)
          else some (2 * Real.pi - (st1.map (fun t => 2 * t.a)).sum)) = some x := heq
      have hok0 : ∀ t ∈ l.map (fun p => (⟨p.1, p.2, false⟩ : Iv)), IvOk t := by
        intro t ht
        obtain ⟨p0, hp0, rfl⟩ := List.mem_map.1 ht
        exact hok p0 hp0
      have hokSt : ∀ t ∈ st1, IvOk t :=
        outerLoop_ok l.length (List.range l.length)
          (l.map (fun p => ⟨p.1, p.2, false⟩)) 0 0 st1 nov1 hout hok0
      by_cases hnov : nov1 ≠ 0
      · rw [if_pos hnov] at heq2
        apply ih (compact st1) x ?_ heq2
        intro p hp
        rw [compact] at hp
        obtain ⟨t, ht, hsome⟩ := List.mem_filterMap.1 hp
        cases htE : t.exc with
        | true =>
          rw [htE] at hsome
          simp at hsome
        | false =>
          rw [htE] at hsome
          simp only [Bool.false_eq_true, if_false, Option.some.injEq] at hsome
          obtain rfl := hsome
          have h1 := hokSt t ht
          exact ⟨h1.1, h1.2.1, h1.2.2⟩
      · rw [if_neg hnov] at heq2
        obtain rfl := Option.some.inj heq2
        push_neg at hnov
        constructor
        · rcases (by omega : l.length ≤ 1 ∨ 2 ≤ l.length) with hs | hL2
          · rcases l with _ | ⟨p, _ | ⟨q, rest⟩⟩
            · have h00 : (some (([] : List Iv), (0 : ℕ)) : Option (List Iv × ℕ)) =
                  some (st1, nov1) := hout
              have h01 := Option.some.inj h00
              have hst : ([] : List Iv) = st1 := (Prod.ext_iff.1 h01).1
              rw [← hst]
              have hπ := Real.pi_pos
              simp
              positivity
            · have h00 : (some ([(⟨p.1, p.2, false⟩ : Iv)], (0 : ℕ)) :
                  Option (List Iv × ℕ)) = some (st1, nov1) := hout
              have h01 := Option.some.inj h00
              have hst : [(⟨p.1, p.2, false⟩ : Iv)] = st1 := (Prod.ext_iff.1 h01).1
              rw [← hst]
              have h1 := (hok p (by simp)).2.1
              simp
              linarith
            · simp only [List.length_cons] at hs
              omega
          · have hnx : (0 : ℕ) ≠ l.length - 1 := by omega
            obtain ⟨hstEq, hsepIdx⟩ := outerLoop_noov l.length (List.range l.length)
              (l.map (fun p => ⟨p.1, p.2, false⟩)) 0 0 st1 nov1 hout hnov hnx
            subst hstEq
            have hmapmap : ((l.map (fun p => (⟨p.1, p.2, false⟩ : Iv))).map
                (fun t => 2 * t.a)) = l.map (fun p => 2 * p.1) := by
              rw [List.map_map]
              rfl
            rw [hmapmap]
            have hPW : List.Pairwise
                (fun p q : ℝ × ℝ => p.1 + q.1 < |normLoop (q.2 - p.2)|) l := by
              rw [List.pairwise_iff_get]
              intro a b hab
              have ha : (a : ℕ) < l.length := a.2
              have hb : (b : ℕ) < l.length := b.2
              have hsep := hsepIdx a (List.mem_range.2 ha)
                (by rw [getE, st0_read l ha]) b (List.mem_range.2 hb)
                (by rw [getE, st0_read l hb])
                (by intro hc; exact absurd (Fin.ext hc) (ne_of_lt hab))
              rw [gapD, getA, getA, getB, getB, st0_read l ha, st0_read l hb] at hsep
              exact hsep
            have hfinal := sum_two_alpha_le l hok hPW
            linarith
        · have hs0 : 0 ≤ (st1.map (fun t => 2 * t.a)).sum := by
            apply List.sum_nonneg
            intro y hy
            obtain ⟨t, ht, rfl⟩ := List.mem_map.1 hy
            have h1 := (hokSt t ht).1
            linarith
          linarith

/-- `sasa_sum_angles` lies in `[0, 2π]` on invariant-satisfying inputs. -/
theorem sumAngles_mem_Icc (l : List (ℝ × ℝ)) (h : ∀ p ∈ l, pOk p) :
    0 ≤ sumAngles l ∧ sumAngles l ≤ 2 * Real.pi := by
  rw [sumAngles]
  rcases hq : sumAnglesFuel (max 1 l.length) l with _ | x
  · simp only [Option.getD_none]
    exact ⟨le_refl 0, by positivity⟩
  · simp only [Option.getD_some]
    exact sumAnglesFuel_mem (max 1 l.length) l x h hq

end SumAnglesIcc


section LeeRichardsNonneg

theorem alphaFor_mem (ri rj d : ℝ) : 0 ≤ alphaFor ri rj d ∧ alphaFor ri rj d ≤ Real.pi :=
  ⟨Real.arccos_nonneg _, Real.arccos_le_pi _⟩

theorem atan2_abs_le (y x : ℝ) : |atan2 y x| ≤ Real.pi := by
  rw [atan2]
  exact abs_le.2 ⟨(Complex.neg_pi_lt_arg _).le, Complex.arg_le_pi _⟩

/-- Every arc the neighbor scan of `sasa_exposed_arcs` collects satisfies the
    `sum_angles` input invariant: `α = acos(...) ∈ [0, π]`,
    `β = atan2(...) ∈ (−π, π]`. -/
theorem arcsInner_ok (sa : List SliceAtom) (i : ℕ) :
    ∀ (js : List ℕ) (bur : List Bool) (p : ℝ × ℝ),
      p ∈ (arcsInner sa i js bur).1 → pOk p := by
  intro js
  induction js with
  | nil =>
    intro bur p hp
    rw [arcsInner] at hp
    simp at hp
  | cons j js ih =>
    intro bur p hp
    rw [arcsInner] at hp
    split_ifs at hp with h1 h2 h3
    · exact ih bur p hp
    · simp at hp
    · exact ih (bur.set j true) p hp
    · rcases List.mem_cons.1 hp with rfl | hp2
      · exact ⟨(alphaFor_mem _ _ _).1, (alphaFor_mem _ _ _).2, atan2_abs_le _ _⟩
      · exact ih bur p hp2

/-- Every per-circle exposed measure is non-negative (0 when buried, else a
    `sasa_sum_angles` value). -/
theorem arcsLoop_mem_nonneg (sa : List SliceAtom) (nbs : ℕ → List ℕ) :
    ∀ (is : List ℕ) (bur : List Bool) (e : ℝ), e ∈ arcsLoop sa nbs is bur → 0 ≤ e := by
  intro is
  induction is with
  | nil =>
    intro bur e he
    rw [arcsLoop] at he
    simp at he
  | cons i is ih =>
    intro bur e he
    rw [arcsLoop] at he
    by_cases h1 : bur.getD i false = true
    · rw [if_pos h1] at he
      rcases List.mem_cons.1 he with rfl | he2
      · exact le_refl 0
      · exact ih bur e he2
    · rw [if_neg h1] at he
      have he2 : e ∈ (if (arcsInner sa i (nbs i) bur).2.2 = true
          then 0 :: arcsLoop sa nbs is (arcsInner sa i (nbs i) bur).2.1
          else sumAngles (arcsInner sa i (nbs i) bur).1 ::
            arcsLoop sa nbs is (arcsInner sa i (nbs i) bur).2.1) := he
      by_cases h2 : (arcsInner sa i (nbs i) bur).2.2 = true
      · rw [if_pos h2] at he2
        rcases List.mem_cons.1 he2 with rfl | he3
        · exact le_refl 0
        · exact ih _ e he3
      · rw [if_neg h2] at he2
        rcases List.mem_cons.1 he2 with rfl | he3
        · exact (sumAngles_mem_Icc _ (fun p hp => arcsInner_ok sa i (nbs i) bur p hp)).1
        · exact ih _ e he3

/-- One slice only ever adds non-negative area to each atom. -/
theorem addSliceArea_mono (coords : List (P3 ℝ)) (radii : List ℝ) (delta : ℝ)
    (nb : ℕ → List ℕ) (z : ℝ) (sasa : ℕ → ℝ) (hd : 0 < delta) (m : ℕ) :
    sasa m ≤ addSliceArea coords radii delta nb z sasa m := by
  rw [addSliceArea, foldl_update_apply]
  have hsum : 0 ≤ ((((sliceAtoms coords radii delta z).zip
      (exposedArcs coords radii delta z nb)).filter
        (fun t => t.1.idx = m)).map (fun t => t.2 * t.1.r * t.1.dr)).sum := by
    apply List.sum_nonneg
    intro y hy
    obtain ⟨t, ht, rfl⟩ := List.mem_map.1 hy
    have htz := List.mem_of_mem_filter ht
    have ht1 := (List.of_mem_zip htz).1
    have ht2 := (List.of_mem_zip htz).2
    have he : 0 ≤ t.2 := by
      rw [exposedArcs] at ht2
      exact arcsLoop_mem_nonneg _ _ _ _ _ ht2
    obtain ⟨i0, hi0, hcond, hts⟩ := mem_sliceAtoms.1 ht1
    have hr : 0 ≤ t.1.r := by
      rw [hts]
      exact Real.sqrt_nonneg _
    have hdr : 0 ≤ t.1.dr := by
      rw [hts]
      have hd0 : 0 ≤ |(coords.getD i0 ⟨0, 0, 0⟩).z - z| := abs_nonneg _
      have hri : 0 < radii.getD i0 0 := lt_of_le_of_lt hd0 hcond
      show 0 ≤ radii.getD i0 0 / Real.sqrt (radii.getD i0 0 * radii.getD i0 0 -
          |(coords.getD i0 ⟨0, 0, 0⟩).z - z| * |(coords.getD i0 ⟨0, 0, 0⟩).z - z|) *
        (delta / 2 + (if delta / 2 < radii.getD i0 0 - |(coords.getD i0 ⟨0, 0, 0⟩).z - z|
          then delta / 2 else radii.getD i0 0 - |(coords.getD i0 ⟨0, 0, 0⟩).z - z|))
      apply mul_nonneg
      · exact div_nonneg hri.le (Real.sqrt_nonneg _)
      · have h2 : 0 < delta / 2 := by linarith
        split_ifs with hcase
        · linarith
        · linarith
    exact mul_nonneg (mul_nonneg he hr) hdr
  linarith

/-- Accumulating slices preserves pointwise non-negativity. -/
theorem foldl_slices_nonneg (coords : List (P3 ℝ)) (radii : List ℝ) (delta : ℝ)
    (nb : ℕ → List ℕ) (hd : 0 < delta) :
    ∀ (zs : List ℝ) (g : ℕ → ℝ), (∀ m, 0 ≤ g m) →
      ∀ m, 0 ≤ (zs.foldl (fun f z => addSliceArea coords radii delta nb z f) g) m := by
  intro zs
  induction zs with
  | nil =>
    intro g hg m
    exact hg m
  | cons z zs ih =>
    intro g hg m
    rw [List.foldl_cons]
    exact ih _ (fun m2 => le_trans (hg m2) (addSliceArea_mono coords radii delta nb z g hd m2)) m

/-- C5: whenever `sasalib_lee_richards` produces an output it is pointwise
non-negative, and `sasa_sum_angles` returns a value in `[0, 2π]` on every
interval list whose half-widths lie in `[0, π]` and centers in `[−π, π]`
(as always holds for the `acos`/`atan2` arcs the integrator feeds it): the
still-active intervals after merging are pairwise disjoint on the circle, so
their total length cannot exceed `2π`, even without an explicit clamp. -/
theorem lee_richards_nonneg (coords : List (P3 ℝ)) (atom_radii : List ℝ)
    (probe_radius delta : ℝ) (hd : 0 < delta) (f : ℕ → ℝ)
    (hf : lee_richards coords atom_radii probe_radius delta hd = some f) :
    (∀ m, 0 ≤ f m) ∧
    (∀ l : List (ℝ × ℝ), (∀ p ∈ l, 0 ≤ p.1 ∧ p.1 ≤ Real.pi ∧ |p.2| ≤ Real.pi) →
      0 ≤ sumAngles l ∧ sumAngles l ≤ 2 * Real.pi) := by
  constructor
  · rw [lee_richards] at hf
    split_ifs at hf with hlen
    have hf2 := Option.some.inj hf
    intro m
    rw [← hf2]
    exact foldl_slices_nonneg coords (atom_radii.map (fun r => r + probe_radius))
      delta (sasaContacts coords (atom_radii.map (fun r => r + probe_radius))) hd
      _ _ (fun _ => le_refl 0) m
  · intro l hl
    exact sumAngles_mem_Icc l hl

/-- Witness for C5 on a single unit atom with probe 0 and slice width 1. -/
theorem lee_richards_nonneg_witness :
    0 ≤ (lee_richards [(⟨0, 0, 0⟩ : P3 ℝ)] [1] 0 1 one_pos).getD (fun _ => 0) 0 := by
  have h := (lee_richards_nonneg [(⟨0, 0, 0⟩ : P3 ℝ)] [1] 0 1 one_pos
    ((sliceCenters 1 one_pos
        (lrMinZ [(⟨0, 0, 0⟩ : P3 ℝ)] (([1] : List ℝ).map (fun r => r + 0)) 1)
        (lrMaxZ [(⟨0, 0, 0⟩ : P3 ℝ)] (([1] : List ℝ).map (fun r => r + 0)))).foldl
      (fun f z => addSliceArea [(⟨0, 0, 0⟩ : P3 ℝ)]
        (([1] : List ℝ).map (fun r => r + 0)) 1
        (sasaContacts [(⟨0, 0, 0⟩ : P3 ℝ)] (([1] : List ℝ).map (fun r => r + 0))) z f)
      (fun _ => 0))
    (by rw [lee_richards, if_neg (by norm_num)])).1 0
  rw [lee_richards, if_neg (by norm_num)]
  exact h

end LeeRichardsNonneg

end FreeSasa
